import Mathlib

/-!
Verification of the lufasu path tracer core (src/main.rs, src/geometry.rs,
src/material.rs).

The Rust code computes with `f32`; the embedding uses exact rational
arithmetic. Machine square roots are modelled by `rsqrt`, a computable
rational square root that is exact on perfect squares and otherwise rounds
up (so `x ≤ rsqrt x * rsqrt x` holds unconditionally, matching the unit
bound `|normalize v| ≥ |v.y|` the float code enjoys up to rounding).
Randomness is an injected capability in the source (uniform floats,
unit-sphere and unit-disk samples), so it is modelled by explicit sample
arguments. Rust `Option::unwrap` panics are modelled by `Except RPanic`.
-/

namespace Lufasu

/-- Fuel-driven search for the least `s` with `n ≤ s * s`; the fuel is the
starting candidate budget, and the accumulator counts up from `s`. -/
def ceilSqrtGo (n : ℕ) : ℕ → ℕ → ℕ
  | 0, s => s
  | fuel + 1, s => if n ≤ s * s then s else ceilSqrtGo n fuel (s + 1)

/-- Least natural `s` with `n ≤ s * s` (fuel `n` suffices since `n ≤ n * n`). -/
def ceilSqrt (n : ℕ) : ℕ := ceilSqrtGo n n 0

/-- Rational model of the machine square root: exact on perfect squares,
rounded up otherwise, and `0` on negative input (the source never takes a
square root of a negative number). -/
def rsqrt (q : ℚ) : ℚ := (ceilSqrt (q.num.toNat * q.den) : ℚ) / (q.den : ℚ)

theorem ceilSqrtGo_spec (n : ℕ) : ∀ fuel s, n ≤ fuel + s →
    n ≤ ceilSqrtGo n fuel s * ceilSqrtGo n fuel s := by
  intro fuel
  induction fuel with
  | zero =>
    intro s hs
    simp only [ceilSqrtGo]
    rcases Nat.eq_zero_or_pos s with h | h
    · omega
    · calc n ≤ s := by omega
        _ ≤ s * s := Nat.le_mul_of_pos_left s h
  | succ fuel ih =>
    intro s hs
    simp only [ceilSqrtGo]
    split
    · assumption
    · exact ih (s + 1) (by omega)

theorem ceilSqrt_spec (n : ℕ) : n ≤ ceilSqrt n * ceilSqrt n :=
  ceilSqrtGo_spec n n 0 (by omega)

theorem rsqrt_nonneg (q : ℚ) : 0 ≤ rsqrt q := by
  unfold rsqrt
  positivity

theorem le_rsqrt_mul_self (q : ℚ) : q ≤ rsqrt q * rsqrt q := by
  rcases le_or_lt q 0 with h | h
  · have := rsqrt_nonneg q
    nlinarith
  · have hden : (0 : ℚ) < (q.den : ℚ) := by exact_mod_cast q.pos
    have hnum : (0 : ℤ) < q.num := Rat.num_pos.mpr h
    have hqd : q * (q.den : ℚ) = (q.num : ℚ) := by
      nth_rewrite 1 [← Rat.num_div_den q]
      field_simp
    unfold rsqrt
    rw [div_mul_div_comm, le_div_iff₀ (by positivity)]
    have h1 : q * ((q.den : ℚ) * (q.den : ℚ)) = ((q.num.toNat * q.den : ℕ) : ℚ) := by
      have h2 : (q.num.toNat : ℚ) = (q.num : ℚ) := by
        exact_mod_cast Int.toNat_of_nonneg hnum.le
      push_cast
      rw [← mul_assoc, hqd, h2]
    rw [h1]
    exact_mod_cast ceilSqrt_spec (q.num.toNat * q.den)

/-- Three-dimensional vector over the rationals (model of nalgebra
`Vector3<f32>`). -/
structure Vec3 where
  x : ℚ
  y : ℚ
  z : ℚ
deriving DecidableEq

instance : Add Vec3 := ⟨fun a b => ⟨a.x + b.x, a.y + b.y, a.z + b.z⟩⟩
instance : Sub Vec3 := ⟨fun a b => ⟨a.x - b.x, a.y - b.y, a.z - b.z⟩⟩
instance : Neg Vec3 := ⟨fun a => ⟨-a.x, -a.y, -a.z⟩⟩
instance : SMul ℚ Vec3 := ⟨fun c v => ⟨c * v.x, c * v.y, c * v.z⟩⟩
instance : Zero Vec3 := ⟨⟨0, 0, 0⟩⟩

/-- Dot product. -/
def Vec3.dot (a b : Vec3) : ℚ := a.x * b.x + a.y * b.y + a.z * b.z

/-- Squared Euclidean norm. -/
def Vec3.normSq (v : Vec3) : ℚ := v.dot v

/-- Componentwise division by a scalar (nalgebra `v / c`). -/
def Vec3.divQ (v : Vec3) (c : ℚ) : Vec3 := ⟨v.x / c, v.y / c, v.z / c⟩

/-- Model of nalgebra `normalize`: divide by the magnitude. -/
def Vec3.normalize (v : Vec3) : Vec3 := v.divQ (rsqrt v.normSq)

@[simp] theorem Vec3.add_def (a b : Vec3) : a + b = ⟨a.x + b.x, a.y + b.y, a.z + b.z⟩ := rfl
@[simp] theorem Vec3.sub_def (a b : Vec3) : a - b = ⟨a.x - b.x, a.y - b.y, a.z - b.z⟩ := rfl
@[simp] theorem Vec3.neg_def (a : Vec3) : -a = ⟨-a.x, -a.y, -a.z⟩ := rfl
@[simp] theorem Vec3.smul_def (c : ℚ) (v : Vec3) : c • v = ⟨c * v.x, c * v.y, c * v.z⟩ := rfl
@[simp] theorem Vec3.zero_def : (0 : Vec3) = ⟨0, 0, 0⟩ := rfl

theorem Vec3.normSq_nonneg (v : Vec3) : 0 ≤ v.normSq := by
  unfold Vec3.normSq Vec3.dot
  nlinarith [mul_self_nonneg v.x, mul_self_nonneg v.y, mul_self_nonneg v.z]

theorem Vec3.normSq_eq_zero_iff (v : Vec3) : v.normSq = 0 ↔ v = 0 := by
  unfold Vec3.normSq Vec3.dot
  constructor
  · intro h
    have hx : v.x = 0 := by nlinarith [sq_nonneg v.x, sq_nonneg v.y, sq_nonneg v.z]
    have hy : v.y = 0 := by nlinarith [sq_nonneg v.x, sq_nonneg v.y, sq_nonneg v.z]
    have hz : v.z = 0 := by nlinarith [sq_nonneg v.x, sq_nonneg v.y, sq_nonneg v.z]
    cases v
    simp_all
  · intro h
    subst h
    simp

/-- Linear-RGB color triple (model of palette `LinSrgb<f32>`). -/
structure LinSrgb where
  red : ℚ
  green : ℚ
  blue : ℚ
deriving DecidableEq

/-- Componentwise product, as palette implements `LinSrgb * LinSrgb`. -/
instance : Mul LinSrgb := ⟨fun a b => ⟨a.red * b.red, a.green * b.green, a.blue * b.blue⟩⟩

@[simp] theorem LinSrgb.mul_def (a b : LinSrgb) :
    a * b = ⟨a.red * b.red, a.green * b.green, a.blue * b.blue⟩ := rfl

/-- Linear interpolation `self + (other - self) * factor`, componentwise,
as palette `Mix::mix` computes for linear RGB. The integrator only mixes
with factors in [0, 1] (the blend factor is (y+1)/2 for a normalized
direction), where this agrees with palette regardless of whether the
factor is first clamped to [0, 1]. -/
def LinSrgb.mix (a b : LinSrgb) (t : ℚ) : LinSrgb :=
  ⟨a.red + (b.red - a.red) * t, a.green + (b.green - a.green) * t,
   a.blue + (b.blue - a.blue) * t⟩

/-- Parametric ray; `Ray::new` normalizes the direction, so the stored
direction field is the normalized input. Immutable: the embedding has no
mutation and the Rust struct exposes no mutators. -/
structure Ray where
  origin : Vec3
  direction : Vec3
deriving DecidableEq

/-- Model of `Ray::new`: stores the origin and the normalized direction. -/
def Ray.new (origin direction : Vec3) : Ray := ⟨origin, direction.normalize⟩

/-- Model of `Ray::at`: `origin + t * direction`. -/
def Ray.at (r : Ray) (t : ℚ) : Vec3 := r.origin + t • r.direction

@[simp] theorem Ray.new_origin (o d : Vec3) : (Ray.new o d).origin = o := rfl

@[simp] theorem Ray.new_direction (o d : Vec3) : (Ray.new o d).direction = d.normalize := rfl

/-- Lambertian (diffuse) material: `struct Lambertian { albedo }`. -/
structure Lambertian where
  albedo : LinSrgb
deriving DecidableEq

/-- Metal (specular) material: `struct Metal { albedo, fuzz }`. -/
structure Metal where
  albedo : LinSrgb
  fuzz : ℚ
deriving DecidableEq

/-- Dielectric material: `struct Dielectric { index }`. -/
structure Dielectric where
  index : ℚ
deriving DecidableEq

/-- Closed material enum, as `enum MaterialEnum { Lambertian, Dielectric, Metal }`. -/
inductive MaterialEnum where
  | lambertian (m : Lambertian)
  | dielectric (m : Dielectric)
  | metal (m : Metal)
deriving DecidableEq

/-- Result of an intersection query: `struct HitRecord`. The normal is
optional in the source (objects like fog would have none). -/
structure HitRecord where
  t : ℚ
  pos : Vec3
  normal : Option Vec3
  material : MaterialEnum
deriving DecidableEq

/-- Output of a material query: attenuation color and outgoing ray. -/
structure Scattering where
  attenuation : LinSrgb
  scattered : Ray
deriving DecidableEq

/-- Model of a Rust panic (here only `Option::unwrap` on `None`). -/
inductive RPanic where
  | unwrapFailed
deriving DecidableEq

/-- One draw from the injected randomness capability: a unit-sphere sample
(for Lambertian/Metal perturbation) and a uniform value in [0,1) (for the
dielectric `gen_bool` Bernoulli draw, which is true iff the uniform draw
falls below the given probability). -/
structure RngDraw where
  sphere : Vec3
  uniform : ℚ
deriving DecidableEq

/-- Mirror reflection `v - 2 (v . n) n` (material.rs `reflect`). -/
def reflect (v normal : Vec3) : Vec3 := v - (2 * v.dot normal) • normal

/-- Snell refraction (material.rs `refract`): normalize `v`, compute the
discriminant `1 - ir^2 (1 - cos^2)`, and refract only when it is strictly
positive. -/
def refract (v normal : Vec3) (ir : ℚ) : Option Vec3 :=
  let vNorm := v.normalize
  let cosTheta := vNorm.dot normal
  let disc := 1 - ir * ir * (1 - cosTheta * cosTheta)
  if 0 < disc then some (ir • (vNorm - cosTheta • normal) - rsqrt disc • normal)
  else none

/-- Schlick reflectance approximation (material.rs `Dielectric::schlick`). -/
def Dielectric.schlick (m : Dielectric) (cosine : ℚ) : ℚ :=
  let r0 := ((1 - m.index) / (1 + m.index)) ^ 2
  r0 + (1 - r0) * (1 - cosine) ^ 5

/-- Model of `Lambertian::scatter`: direction = unwrapped normal plus a
unit-sphere sample; always scatters with attenuation = albedo. -/
def Lambertian.scatter (m : Lambertian) (_ray : Ray) (hitRecord : HitRecord)
    (d : RngDraw) : Except RPanic (Option Scattering) :=
  match hitRecord.normal with
  | none => .error .unwrapFailed
  | some n =>
    let direction := n + d.sphere
    .ok (some ⟨m.albedo, Ray.new hitRecord.pos direction⟩)

/-- Model of `Metal::scatter`: mirror-reflect, perturb by `fuzz * sample`,
and scatter only if the (normalized) scattered direction points out of the
surface. -/
def Metal.scatter (m : Metal) (ray : Ray) (hitRecord : HitRecord)
    (d : RngDraw) : Except RPanic (Option Scattering) :=
  match hitRecord.normal with
  | none => .error .unwrapFailed
  | some normal =>
    let reflected := reflect ray.direction normal + m.fuzz • d.sphere
    let scattered := Ray.new hitRecord.pos reflected
    if 0 < scattered.direction.dot normal then .ok (some ⟨m.albedo, scattered⟩)
    else .ok none

/-- Model of `Dielectric::scatter`: pick outward normal / index ratio /
cosine by entering-vs-exiting test, attempt refraction, and on success use
the Schlick Bernoulli draw to choose reflection; attenuation is white. -/
def Dielectric.scatter (m : Dielectric) (ray : Ray) (hitRecord : HitRecord)
    (d : RngDraw) : Except RPanic (Option Scattering) :=
  match hitRecord.normal with
  | none => .error .unwrapFailed
  | some normal =>
    let attenuation : LinSrgb := ⟨1, 1, 1⟩
    let triple : Vec3 × ℚ × ℚ :=
      if 0 < ray.direction.dot normal then
        (-normal, m.index, m.index * ray.direction.dot normal)
      else
        (normal, 1 / m.index, -(ray.direction.dot normal))
    let direction :=
      match refract ray.direction triple.1 triple.2.1 with
      | some refracted =>
        if d.uniform < m.schlick triple.2.2 then reflect ray.direction normal
        else refracted
      | none => reflect ray.direction normal
    .ok (some ⟨attenuation, Ray.new hitRecord.pos direction⟩)

/-- enum_dispatch of `Material::scatter` over the material enum. -/
def MaterialEnum.scatter : MaterialEnum → Ray → HitRecord → RngDraw →
    Except RPanic (Option Scattering)
  | .lambertian m, ray, hr, d => m.scatter ray hr d
  | .dielectric m, ray, hr, d => m.scatter ray hr d
  | .metal m, ray, hr, d => m.scatter ray hr d

/-- Sphere primitive: `struct Sphere { center, radius, material }`. -/
structure Sphere where
  center : Vec3
  radius : ℚ
  material : MaterialEnum
deriving DecidableEq

/-- The hit record `Sphere::hits` builds at parameter `t`: position
`ray.at t`, normal `(pos - center) / radius`. -/
def Sphere.mkHit (s : Sphere) (ray : Ray) (t : ℚ) : HitRecord :=
  let pos := ray.at t
  ⟨t, pos, some ((pos - s.center).divQ s.radius), s.material⟩

/-- Model of `Sphere::hits`: solve the quadratic with `b = 2 (oc . d)`,
`c = oc . oc - r^2`, discriminant `b^2 - 4 c`; on a nonnegative
discriminant try the root with sign -1 first, then sign +1, returning the
first root in the half-open window `tmin ≤ t < tmax`. -/
def Sphere.hits (s : Sphere) (ray : Ray) (tmin : ℚ) (tmax : WithTop ℚ) :
    Option HitRecord :=
  let axis := ray.origin - s.center
  let b := 2 * axis.dot ray.direction
  let c := axis.dot axis - s.radius * s.radius
  let disc := b * b - 4 * c
  if 0 ≤ disc then
    let t1 := (-b + rsqrt disc * (-1)) / 2
    if tmin ≤ t1 ∧ ((t1 : ℚ) : WithTop ℚ) < tmax then some (s.mkHit ray t1)
    else
      let t2 := (-b + rsqrt disc * 1) / 2
      if tmin ≤ t2 ∧ ((t2 : ℚ) : WithTop ℚ) < tmax then some (s.mkHit ray t2)
      else none
  else none

/-- Closed hittable enum: `enum HittableEnum { Sphere, HittableList }`,
with the list member holding `Vec<HittableEnum>`. -/
inductive HittableEnum where
  | sphere (s : Sphere)
  | list (hittables : List HittableEnum)

/-- enum_dispatch of `Hittable::hits`. The helper `go` is the loop body of
`HittableList::hits`: iterate the members, query each with the current best
`t` as the pruning upper bound, and keep a strictly closer hit. -/
def HittableEnum.hits : HittableEnum → Ray → ℚ → WithTop ℚ → Option HitRecord
  | .sphere s, ray, tmin, tmax => s.hits ray tmin tmax
  | .list hs, ray, tmin, tmax => go ray tmin hs tmax none
where go (ray : Ray) (tmin : ℚ) :
    List HittableEnum → WithTop ℚ → Option HitRecord → Option HitRecord
  | [], _, best => best
  | h :: rest, bestT, best =>
    match h.hits ray tmin bestT with
    | some rec =>
      if ((rec.t : ℚ) : WithTop ℚ) < bestT then go ray tmin rest (rec.t : ℚ) (some rec)
      else go ray tmin rest bestT best
    | none => go ray tmin rest bestT best

/-- Model of `HittableList::hits` on its `hittables` vector: start with no
best hit and `best_t = t_max`. -/
def HittableList.hits (hittables : List HittableEnum) (ray : Ray) (tmin : ℚ)
    (tmax : WithTop ℚ) : Option HitRecord :=
  HittableEnum.hits.go ray tmin hittables tmax none

/-- Bounce limit from main.rs: `const BOUNCES: usize = 50`. -/
def BOUNCES : ℕ := 50

/-- Model of main.rs `color`: query the scene on `[0.001, infinity)`; on a
hit, scatter and recurse while `bounce < BOUNCES` (black on absorption or
when the bounce budget is spent); on a miss, blend white to blue by the
direction's y component. -/
def color (ray : Ray) (world : HittableEnum) (bounce : ℕ)
    (rng : ℕ → RngDraw) : Except RPanic LinSrgb :=
  match HittableEnum.hits world ray (1 / 1000) ⊤ with
  | some hitRecord =>
    if h : bounce < BOUNCES then
      match hitRecord.material.scatter ray hitRecord (rng bounce) with
      | .error e => .error e
      | .ok (some scat) =>
        match color scat.scattered world (bounce + 1) rng with
        | .error e => .error e
        | .ok c => .ok (scat.attenuation * c)
      | .ok none => .ok ⟨0, 0, 0⟩
    else .ok ⟨0, 0, 0⟩
  | none =>
    let t := (ray.direction.y + 1) / 2
    .ok (LinSrgb.mix ⟨1, 1, 1⟩ ⟨1/2, 7/10, 1⟩ t)
termination_by BOUNCES - bounce

/-- Camera state: image-plane corner and spans, origin, lens basis and
radius (geometry.rs `struct Camera`). -/
structure Camera where
  lower_left : Vec3
  horizontal : Vec3
  vertical : Vec3
  origin : Vec3
  u : Vec3
  v : Vec3
  lens_radius : ℚ
deriving DecidableEq

/-- Model of `Camera::ray`: the unit-disk lens sample is the injected
randomness, scaled by the lens radius along (u, v); the direction targets
the plane point minus the offset origin. -/
def Camera.ray (c : Camera) (s t : ℚ) (lens_position : ℚ × ℚ) : Ray :=
  let lens_offset :=
    c.lens_radius • (lens_position.1 • c.u + lens_position.2 • c.v)
  Ray.new (c.origin + lens_offset)
    (c.lower_left + s • c.horizontal + t • c.vertical - c.origin - lens_offset)

/-! ### Evaluation helpers for concrete inputs -/

theorem rsqrt_ofNat (n s : ℕ) (h : ceilSqrt n = s) : rsqrt (n : ℚ) = s := by
  unfold rsqrt
  rw [Rat.num_natCast, Rat.den_natCast]
  simp [h]

theorem rsqrt_zero : rsqrt 0 = 0 := by
  have h : ((0 : ℕ) : ℚ) = (0 : ℚ) := by norm_num
  rw [← h, rsqrt_ofNat 0 0 (by decide)]

theorem rsqrt_one : rsqrt 1 = 1 := by
  have h : ((1 : ℕ) : ℚ) = (1 : ℚ) := by norm_num
  rw [← h, rsqrt_ofNat 1 1 (by decide)]

theorem rsqrt_four : rsqrt 4 = 2 := by
  have h : ((4 : ℕ) : ℚ) = (4 : ℚ) := by norm_num
  rw [← h, rsqrt_ofNat 4 2 (by decide)]
  norm_num

theorem rsqrt_25 : rsqrt 25 = 5 := by
  have h : ((25 : ℕ) : ℚ) = (25 : ℚ) := by norm_num
  rw [← h, rsqrt_ofNat 25 5 (by decide)]
  norm_num

/-! ### General facts about normalization -/

theorem Vec3.normSq_self_dot (v : Vec3) : v.normSq = v.x * v.x + v.y * v.y + v.z * v.z := rfl

theorem rsqrt_normSq_pos (v : Vec3) (hv : v ≠ 0) : 0 < rsqrt v.normSq := by
  rcases lt_or_eq_of_le (rsqrt_nonneg v.normSq) with h | h
  · exact h
  · exfalso
    have h1 := le_rsqrt_mul_self v.normSq
    rw [← h, mul_zero] at h1
    have h2 := Vec3.normSq_nonneg v
    exact hv ((Vec3.normSq_eq_zero_iff v).mp (le_antisymm h1 h2))

theorem Vec3.normalize_dot (v n : Vec3) :
    v.normalize.dot n = v.dot n / rsqrt v.normSq := by
  obtain ⟨x, y, z⟩ := v
  simp only [Vec3.normalize, Vec3.divQ, Vec3.dot]
  ring

/-- Dividing by the (round-up) magnitude preserves the sign of a dot
product: positive divided stays positive, and a zero vector stays zero. -/
theorem normalize_dot_pos_iff (v n : Vec3) :
    (0 < v.normalize.dot n) ↔ 0 < v.dot n := by
  rw [Vec3.normalize_dot]
  by_cases hv : v = 0
  · subst hv
    constructor <;> intro h <;> simp [Vec3.dot, Vec3.zero_def] at h
  · have hpos := rsqrt_normSq_pos v hv
    exact div_pos_iff_of_pos_right hpos

/-- The normalized direction has y component in [-1, 1]: the round-up root
dominates each coordinate in magnitude. -/
theorem normalize_y_bounds (v : Vec3) :
    -1 ≤ v.normalize.y ∧ v.normalize.y ≤ 1 := by
  have hy : v.normalize.y = v.y / rsqrt v.normSq := rfl
  have hnn := rsqrt_nonneg v.normSq
  rcases eq_or_lt_of_le hnn with h0 | hpos
  · rw [hy, ← h0, div_zero]
    norm_num
  · have hsq : v.y * v.y ≤ rsqrt v.normSq * rsqrt v.normSq := by
      have h1 := le_rsqrt_mul_self v.normSq
      have h2 : v.y * v.y ≤ v.normSq := by
        rw [Vec3.normSq_self_dot]
        nlinarith [mul_self_nonneg v.x, mul_self_nonneg v.z]
      linarith
    have habs : -(rsqrt v.normSq) ≤ v.y ∧ v.y ≤ rsqrt v.normSq := by
      constructor <;> nlinarith
    rw [hy]
    constructor
    · rw [le_div_iff₀ hpos]
      nlinarith [habs.1]
    · rw [div_le_one hpos]
      exact habs.2

/-! ### C8: rays store unit directions -/

/-- C8: a ray constructed via `Ray::new` from a non-zero direction stores a
direction of unit magnitude (squared norm 1), under the idealization that
the machine square root is exact at the direction's squared norm. The ray
is immutable after construction: the embedding is a pure structure and the
source exposes only read accessors. -/
theorem ray_new_unit_direction (o d : Vec3) (hd : d ≠ 0)
    (hexact : rsqrt d.normSq * rsqrt d.normSq = d.normSq) :
    (Ray.new o d).direction.normSq = 1 := by
  have hne : d.normSq ≠ 0 := fun h0 => hd ((Vec3.normSq_eq_zero_iff d).mp h0)
  have hr : rsqrt d.normSq ≠ 0 := by
    intro h0
    rw [h0, mul_zero] at hexact
    exact hne hexact.symm
  show (d.divQ (rsqrt d.normSq)).normSq = 1
  have hform : (d.divQ (rsqrt d.normSq)).normSq = d.normSq / (rsqrt d.normSq * rsqrt d.normSq) := by
    obtain ⟨x, y, z⟩ := d
    simp only [Vec3.normSq, Vec3.dot, Vec3.divQ]
    field_simp
  rw [hform, hexact, div_self hne]

/-- Witness for C8 at direction (0, 3, 4), whose norm 5 is exact. -/
theorem ray_new_unit_direction_witness :
    (⟨0, 3, 4⟩ : Vec3) ≠ 0 ∧
      rsqrt (Vec3.normSq ⟨0, 3, 4⟩) * rsqrt (Vec3.normSq ⟨0, 3, 4⟩) =
        Vec3.normSq ⟨0, 3, 4⟩ ∧
      (Ray.new 0 ⟨0, 3, 4⟩).direction.normSq = 1 := by
  have h25 : Vec3.normSq ⟨0, 3, 4⟩ = 25 := by
    rw [Vec3.normSq_self_dot]
    norm_num
  have hd : (⟨0, 3, 4⟩ : Vec3) ≠ 0 := by
    intro h
    rw [Vec3.zero_def] at h
    simp at h
  refine ⟨hd, ?_, ?_⟩
  · rw [h25, rsqrt_25]
    norm_num
  · exact ray_new_unit_direction 0 ⟨0, 3, 4⟩ hd (by rw [h25, rsqrt_25]; norm_num)

/-! ### Scatter unfolding lemmas -/

@[simp] theorem MaterialEnum.scatter_lambertian (m : Lambertian) (ray : Ray)
    (hr : HitRecord) (d : RngDraw) :
    (MaterialEnum.lambertian m).scatter ray hr d = m.scatter ray hr d := rfl

@[simp] theorem MaterialEnum.scatter_dielectric (m : Dielectric) (ray : Ray)
    (hr : HitRecord) (d : RngDraw) :
    (MaterialEnum.dielectric m).scatter ray hr d = m.scatter ray hr d := rfl

@[simp] theorem MaterialEnum.scatter_metal (m : Metal) (ray : Ray)
    (hr : HitRecord) (d : RngDraw) :
    (MaterialEnum.metal m).scatter ray hr d = m.scatter ray hr d := rfl

theorem lambertian_scatter_eq (m : Lambertian) (ray : Ray) (hr : HitRecord)
    (n : Vec3) (d : RngDraw) (hn : hr.normal = some n) :
    m.scatter ray hr d = .ok (some ⟨m.albedo, Ray.new hr.pos (n + d.sphere)⟩) := by
  unfold Lambertian.scatter
  rw [hn]

theorem metal_scatter_eq (m : Metal) (ray : Ray) (hr : HitRecord)
    (n : Vec3) (d : RngDraw) (hn : hr.normal = some n) :
    m.scatter ray hr d =
      if 0 < (Ray.new hr.pos (reflect ray.direction n + m.fuzz • d.sphere)).direction.dot n
      then .ok (some ⟨m.albedo, Ray.new hr.pos (reflect ray.direction n + m.fuzz • d.sphere)⟩)
      else .ok none := by
  unfold Metal.scatter
  rw [hn]

theorem dielectric_scatter_eq (m : Dielectric) (ray : Ray) (hr : HitRecord)
    (n : Vec3) (d : RngDraw) (hn : hr.normal = some n) :
    m.scatter ray hr d = .ok (some ⟨⟨1, 1, 1⟩, Ray.new hr.pos
      (match refract ray.direction
          (if 0 < ray.direction.dot n then -n else n)
          (if 0 < ray.direction.dot n then m.index else 1 / m.index) with
        | some refracted =>
          if d.uniform < m.schlick
              (if 0 < ray.direction.dot n then m.index * ray.direction.dot n
               else -(ray.direction.dot n)) then
            reflect ray.direction n
          else refracted
        | none => reflect ray.direction n)⟩) := by
  unfold Dielectric.scatter
  rw [hn]
  by_cases hc : 0 < ray.direction.dot n
  · simp only [if_pos hc]
  · simp only [if_neg hc]

/-! ### C9: scattered rays originate at the hit position -/

/-- C9: any scattering returned by any material variant carries a ray whose
origin is exactly the hit record's position. -/
theorem scatter_origin_eq_hit_pos (m : MaterialEnum) (ray : Ray)
    (hr : HitRecord) (d : RngDraw) (sc : Scattering)
    (h : m.scatter ray hr d = .ok (some sc)) :
    sc.scattered.origin = hr.pos := by
  cases hn : hr.normal with
  | none =>
    cases m <;>
      simp [MaterialEnum.scatter, Lambertian.scatter, Metal.scatter,
        Dielectric.scatter, hn] at h
  | some n =>
    cases m with
    | lambertian m =>
      rw [MaterialEnum.scatter_lambertian, lambertian_scatter_eq m ray hr n d hn] at h
      simp only [Except.ok.injEq, Option.some.injEq] at h
      rw [← h]
      rfl
    | dielectric m =>
      rw [MaterialEnum.scatter_dielectric, dielectric_scatter_eq m ray hr n d hn] at h
      simp only [Except.ok.injEq, Option.some.injEq] at h
      rw [← h]
      rfl
    | metal m =>
      rw [MaterialEnum.scatter_metal, metal_scatter_eq m ray hr n d hn] at h
      split at h
      · simp only [Except.ok.injEq, Option.some.injEq] at h
        rw [← h]
        rfl
      · simp at h

/-- Concrete scene elements reused by several witnesses below. -/
def mat0 : MaterialEnum := .lambertian ⟨⟨1/2, 1/2, 1/2⟩⟩

def sph0 : Sphere := ⟨⟨0, 0, -3⟩, 1, mat0⟩

def hr0 : HitRecord := ⟨2, ⟨0, 0, -2⟩, some ⟨0, 0, 1⟩, mat0⟩

def ray0 : Ray := Ray.new ⟨0, 0, 0⟩ ⟨0, 0, -1⟩

def draw0 : RngDraw := ⟨⟨0, 0, 1⟩, 1/2⟩

/-- Witness for C9: a concrete Lambertian scattering at `hr0`. -/
theorem scatter_origin_eq_hit_pos_witness :
    mat0.scatter ray0 hr0 draw0 =
      .ok (some ⟨⟨1/2, 1/2, 1/2⟩, Ray.new hr0.pos (⟨0, 0, 1⟩ + draw0.sphere)⟩) ∧
    (Ray.new hr0.pos (⟨0, 0, 1⟩ + draw0.sphere)).origin = hr0.pos := by
  have h : mat0.scatter ray0 hr0 draw0 =
      .ok (some ⟨⟨1/2, 1/2, 1/2⟩, Ray.new hr0.pos (⟨0, 0, 1⟩ + draw0.sphere)⟩) := rfl
  exact ⟨h, scatter_origin_eq_hit_pos mat0 ray0 hr0 draw0 _ h⟩

/-! ### C4: totality of the scattering protocol -/

/-- C4: with a present normal, Lambertian and Dielectric scattering always
succeed, and Metal scattering succeeds exactly when the fuzz-perturbed
reflected direction has positive dot product with the surface normal. -/
theorem scatter_totality (ray : Ray) (hr : HitRecord) (n : Vec3)
    (d : RngDraw) (hn : hr.normal = some n) :
    (∀ m : Lambertian, ∃ sc, m.scatter ray hr d = .ok (some sc)) ∧
    (∀ m : Dielectric, ∃ sc, m.scatter ray hr d = .ok (some sc)) ∧
    (∀ m : Metal, (∃ sc, m.scatter ray hr d = .ok (some sc)) ↔
      0 < (reflect ray.direction n + m.fuzz • d.sphere).dot n) := by
  refine ⟨?_, ?_, ?_⟩
  · intro m
    rw [lambertian_scatter_eq m ray hr n d hn]
    exact ⟨_, rfl⟩
  · intro m
    rw [dielectric_scatter_eq m ray hr n d hn]
    exact ⟨_, rfl⟩
  · intro m
    rw [metal_scatter_eq m ray hr n d hn]
    simp only [Ray.new_direction]
    have hiff := normalize_dot_pos_iff (reflect ray.direction n + m.fuzz • d.sphere) n
    constructor
    · rintro ⟨sc, hsc⟩
      split at hsc
      · next hpos => exact hiff.mp hpos
      · exact absurd hsc (by simp)
    · intro hpos
      rw [if_pos (hiff.mpr hpos)]
      exact ⟨_, rfl⟩

/-- Witness for C4 at the concrete hit `hr0`: the metal case is exercised
with zero fuzz, where the reflection of the incoming -z ray about the +z
normal points out of the surface. -/
theorem scatter_totality_witness :
    hr0.normal = some ⟨0, 0, 1⟩ ∧
    (∃ sc, Lambertian.scatter ⟨⟨1, 1, 1⟩⟩ ray0 hr0 draw0 = .ok (some sc)) ∧
    (∃ sc, Dielectric.scatter ⟨3/2⟩ ray0 hr0 draw0 = .ok (some sc)) ∧
    ((∃ sc, Metal.scatter ⟨⟨1, 1, 1⟩, 0⟩ ray0 hr0 draw0 = .ok (some sc)) ↔
      0 < (reflect ray0.direction ⟨0, 0, 1⟩ + (0 : ℚ) • draw0.sphere).dot ⟨0, 0, 1⟩) := by
  have hch := scatter_totality ray0 hr0 ⟨0, 0, 1⟩ draw0 rfl
  exact ⟨rfl, hch.1 ⟨⟨1, 1, 1⟩⟩, hch.2.1 ⟨3/2⟩, hch.2.2 ⟨⟨1, 1, 1⟩, 0⟩⟩

/-! ### C6: camera rays pass through the focal-plane target -/

theorem Vec3.smul_rsqrt_normalize (v : Vec3) (hv : v ≠ 0) :
    rsqrt v.normSq • v.normalize = v := by
  have hr : rsqrt v.normSq ≠ 0 := (rsqrt_normSq_pos v hv).ne'
  obtain ⟨x, y, z⟩ := v
  simp only [Vec3.normalize, Vec3.divQ, Vec3.smul_def, Vec3.mk.injEq] at hr ⊢
  refine ⟨?_, ?_, ?_⟩ <;> field_simp

theorem Vec3.add_add_sub_sub_cancel (a b T : Vec3) : (a + b) + (T - a - b) = T := by
  cases a; cases b; cases T
  simp only [Vec3.add_def, Vec3.sub_def, Vec3.mk.injEq]
  refine ⟨by ring, by ring, by ring⟩

/-- C6: whatever lens sample is drawn, the camera ray reaches the
focal-plane target `lower_left + s * horizontal + t * vertical` at some
nonnegative parameter, provided the target differs from the lens-offset
origin. The target does not depend on the lens sample, so rays through
different lens points all converge on it. -/
theorem camera_ray_through_focal_target (c : Camera) (s t : ℚ) (p : ℚ × ℚ)
    (hne : c.lower_left + s • c.horizontal + t • c.vertical - c.origin -
      c.lens_radius • (p.1 • c.u + p.2 • c.v) ≠ 0) :
    ∃ tp : ℚ, 0 ≤ tp ∧
      (c.ray s t p).at tp = c.lower_left + s • c.horizontal + t • c.vertical := by
  refine ⟨rsqrt (c.lower_left + s • c.horizontal + t • c.vertical - c.origin -
      c.lens_radius • (p.1 • c.u + p.2 • c.v)).normSq, rsqrt_nonneg _, ?_⟩
  calc (c.ray s t p).at (rsqrt (c.lower_left + s • c.horizontal + t • c.vertical -
          c.origin - c.lens_radius • (p.1 • c.u + p.2 • c.v)).normSq)
      = (c.origin + c.lens_radius • (p.1 • c.u + p.2 • c.v)) +
          rsqrt (c.lower_left + s • c.horizontal + t • c.vertical - c.origin -
            c.lens_radius • (p.1 • c.u + p.2 • c.v)).normSq •
          (c.lower_left + s • c.horizontal + t • c.vertical - c.origin -
            c.lens_radius • (p.1 • c.u + p.2 • c.v)).normalize := rfl
    _ = (c.origin + c.lens_radius • (p.1 • c.u + p.2 • c.v)) +
          (c.lower_left + s • c.horizontal + t • c.vertical - c.origin -
            c.lens_radius • (p.1 • c.u + p.2 • c.v)) := by
        rw [Vec3.smul_rsqrt_normalize _ hne]
    _ = c.lower_left + s • c.horizontal + t • c.vertical :=
        Vec3.add_add_sub_sub_cancel _ _ _

/-- A concrete camera for the C6 witness: origin at 0, image plane at
z = -1, no aperture. -/
def cam0 : Camera := ⟨⟨-1, -1, -1⟩, ⟨2, 0, 0⟩, ⟨0, 2, 0⟩, ⟨0, 0, 0⟩,
  ⟨1, 0, 0⟩, ⟨0, 1, 0⟩, 0⟩

/-- Witness for C6: at screen center with lens sample (0,0), the target is
(0, 0, -1), distinct from the origin. -/
theorem camera_ray_through_focal_target_witness :
    (cam0.lower_left + (1/2 : ℚ) • cam0.horizontal + (1/2 : ℚ) • cam0.vertical -
      cam0.origin - cam0.lens_radius • ((0 : ℚ) • cam0.u + (0 : ℚ) • cam0.v) ≠ 0) ∧
    ∃ tp : ℚ, 0 ≤ tp ∧ (cam0.ray (1/2) (1/2) (0, 0)).at tp =
      cam0.lower_left + (1/2 : ℚ) • cam0.horizontal + (1/2 : ℚ) • cam0.vertical := by
  have hne : cam0.lower_left + (1/2 : ℚ) • cam0.horizontal + (1/2 : ℚ) • cam0.vertical -
      cam0.origin - cam0.lens_radius • ((0 : ℚ) • cam0.u + (0 : ℚ) • cam0.v) ≠ 0 := by
    simp only [cam0, Vec3.smul_def, Vec3.add_def, Vec3.sub_def, Vec3.zero_def, Vec3.mk.injEq]
    norm_num
  exact ⟨hne, camera_ray_through_focal_target cam0 (1/2) (1/2) (0, 0) hne⟩

/-! ### C3: the sphere intersection characterization -/

/-- C3: `Sphere::hits` misses exactly as the claim describes: with
`b = 2 (oc . d)`, `c = oc . oc - r^2` and discriminant `b^2 - 4c`, a
negative discriminant yields no hit; otherwise the smaller quadratic root
is tried first and the first root in `[tmin, tmax)` is returned, with
position `ray.at t` and normal `(position - center) / radius`. -/
theorem sphere_hits_characterization (s : Sphere) (ray : Ray) (tmin : ℚ)
    (tmax : WithTop ℚ) (oc : Vec3) (b c disc root1 root2 : ℚ)
    (hunit : ray.direction.normSq = 1)
    (hoc : oc = ray.origin - s.center)
    (hb : b = 2 * oc.dot ray.direction)
    (hc : c = oc.dot oc - s.radius * s.radius)
    (hdisc : disc = b * b - 4 * c)
    (h1 : root1 = (-b - rsqrt disc) / 2)
    (h2 : root2 = (-b + rsqrt disc) / 2) :
    (disc < 0 → s.hits ray tmin tmax = none) ∧
    (0 ≤ disc → root1 ≤ root2 ∧
      s.hits ray tmin tmax =
        if tmin ≤ root1 ∧ ((root1 : ℚ) : WithTop ℚ) < tmax then
          some ⟨root1, ray.at root1,
            some ((ray.at root1 - s.center).divQ s.radius), s.material⟩
        else if tmin ≤ root2 ∧ ((root2 : ℚ) : WithTop ℚ) < tmax then
          some ⟨root2, ray.at root2,
            some ((ray.at root2 - s.center).divQ s.radius), s.material⟩
        else none) := by
  constructor
  · intro hneg
    simp only [Sphere.hits]
    rw [if_neg]
    rw [hdisc, hb, hc, hoc] at hneg
    exact not_le.mpr hneg
  · intro hpos
    have hnn := rsqrt_nonneg disc
    refine ⟨by rw [h1, h2]; linarith, ?_⟩
    simp only [Sphere.hits, Sphere.mkHit]
    rw [if_pos (by rw [hdisc, hb, hc, hoc] at hpos; exact hpos)]
    have er1 : (-(2 * (ray.origin - s.center).dot ray.direction) +
        rsqrt ((2 * (ray.origin - s.center).dot ray.direction) *
            (2 * (ray.origin - s.center).dot ray.direction) -
          4 * ((ray.origin - s.center).dot (ray.origin - s.center) -
            s.radius * s.radius)) * (-1)) / 2 = root1 := by
      rw [h1, hdisc, hb, hc, hoc]
      ring
    have er2 : (-(2 * (ray.origin - s.center).dot ray.direction) +
        rsqrt ((2 * (ray.origin - s.center).dot ray.direction) *
            (2 * (ray.origin - s.center).dot ray.direction) -
          4 * ((ray.origin - s.center).dot (ray.origin - s.center) -
            s.radius * s.radius)) * 1) / 2 = root2 := by
      rw [h2, hdisc, hb, hc, hoc]
      ring
    rw [er1, er2]

/-! ### Unfolding lemmas for the hittable dispatch -/

@[simp] theorem HittableEnum.hits_sphere (s : Sphere) (ray : Ray) (tmin : ℚ)
    (tmax : WithTop ℚ) :
    (HittableEnum.sphere s).hits ray tmin tmax = s.hits ray tmin tmax := rfl

@[simp] theorem HittableEnum.hits_list (hs : List HittableEnum) (ray : Ray)
    (tmin : ℚ) (tmax : WithTop ℚ) :
    (HittableEnum.list hs).hits ray tmin tmax = HittableList.hits hs ray tmin tmax := rfl

@[simp] theorem HittableEnum.hits_go_nil (ray : Ray) (tmin : ℚ)
    (bestT : WithTop ℚ) (best : Option HitRecord) :
    HittableEnum.hits.go ray tmin [] bestT best = best := rfl

theorem HittableEnum.hits_go_cons (ray : Ray) (tmin : ℚ) (h : HittableEnum)
    (rest : List HittableEnum) (bestT : WithTop ℚ) (best : Option HitRecord) :
    HittableEnum.hits.go ray tmin (h :: rest) bestT best =
      match h.hits ray tmin bestT with
      | some rec =>
        if ((rec.t : ℚ) : WithTop ℚ) < bestT then
          HittableEnum.hits.go ray tmin rest (rec.t : ℚ) (some rec)
        else HittableEnum.hits.go ray tmin rest bestT best
      | none => HittableEnum.hits.go ray tmin rest bestT best := rfl

/-! ### Evaluations of the concrete rays -/

theorem ray0_direction : ray0.direction = ⟨0, 0, -1⟩ := by
  have h1 : Vec3.normSq ⟨0, 0, -1⟩ = 1 := by
    rw [Vec3.normSq_self_dot]
    norm_num
  show Vec3.normalize ⟨0, 0, -1⟩ = _
  rw [Vec3.normalize, h1, rsqrt_one, Vec3.divQ]
  norm_num

def emptyWorld : HittableEnum := .list []

def upRay : Ray := Ray.new ⟨0, 0, 0⟩ ⟨0, 1, 0⟩

def rng0 : ℕ → RngDraw := fun _ => draw0

theorem upRay_direction : upRay.direction = ⟨0, 1, 0⟩ := by
  have h1 : Vec3.normSq ⟨0, 1, 0⟩ = 1 := by
    rw [Vec3.normSq_self_dot]
    norm_num
  show Vec3.normalize ⟨0, 1, 0⟩ = _
  rw [Vec3.normalize, h1, rsqrt_one, Vec3.divQ]
  norm_num

/-- Witness for C3: the unit ray from the origin toward (0,0,-1) against
the sphere of radius 1 at (0,0,-3): b = -6, c = 8, discriminant 4, roots
2 and 4. -/
theorem sphere_hits_characterization_witness :
    Vec3.normSq ray0.direction = 1 ∧
    (⟨0, 0, 3⟩ : Vec3) = ray0.origin - sph0.center ∧
    (-6 : ℚ) = 2 * Vec3.dot ⟨0, 0, 3⟩ ray0.direction ∧
    (8 : ℚ) = Vec3.dot ⟨0, 0, 3⟩ ⟨0, 0, 3⟩ - sph0.radius * sph0.radius ∧
    (4 : ℚ) = (-6 : ℚ) * (-6 : ℚ) - 4 * 8 ∧
    (2 : ℚ) = (-(-6 : ℚ) - rsqrt 4) / 2 ∧
    (4 : ℚ) = (-(-6 : ℚ) + rsqrt 4) / 2 ∧
    (((4 : ℚ) < 0 → sph0.hits ray0 (1/1000) ⊤ = none) ∧
      ((0 : ℚ) ≤ 4 → (2 : ℚ) ≤ 4 ∧
        sph0.hits ray0 (1/1000) ⊤ =
          if (1/1000 : ℚ) ≤ 2 ∧ (((2 : ℚ) : WithTop ℚ) < ⊤) then
            some ⟨2, ray0.at 2, some ((ray0.at 2 - sph0.center).divQ sph0.radius),
              sph0.material⟩
          else if (1/1000 : ℚ) ≤ 4 ∧ (((4 : ℚ) : WithTop ℚ) < ⊤) then
            some ⟨4, ray0.at 4, some ((ray0.at 4 - sph0.center).divQ sph0.radius),
              sph0.material⟩
          else none)) := by
  have hunit : Vec3.normSq ray0.direction = 1 := by
    rw [ray0_direction, Vec3.normSq_self_dot]
    norm_num
  have hoc : (⟨0, 0, 3⟩ : Vec3) = ray0.origin - sph0.center := by
    rw [show ray0.origin - sph0.center = (⟨0 - 0, 0 - 0, 0 - (-3 : ℚ)⟩ : Vec3) from rfl]
    norm_num
  have hb : (-6 : ℚ) = 2 * Vec3.dot ⟨0, 0, 3⟩ ray0.direction := by
    rw [ray0_direction, Vec3.dot]
    norm_num
  have hc : (8 : ℚ) = Vec3.dot ⟨0, 0, 3⟩ ⟨0, 0, 3⟩ - sph0.radius * sph0.radius := by
    rw [Vec3.dot, show sph0.radius = 1 from rfl]
    norm_num
  have hdisc : (4 : ℚ) = (-6 : ℚ) * (-6 : ℚ) - 4 * 8 := by norm_num
  have h1 : (2 : ℚ) = (-(-6 : ℚ) - rsqrt 4) / 2 := by
    rw [rsqrt_four]
    norm_num
  have h2 : (4 : ℚ) = (-(-6 : ℚ) + rsqrt 4) / 2 := by
    rw [rsqrt_four]
    norm_num
  exact ⟨hunit, hoc, hb, hc, hdisc, h1, h2,
    sphere_hits_characterization sph0 ray0 (1/1000) ⊤ ⟨0, 0, 3⟩ (-6) 8 4 2 4
      hunit hoc hb hc hdisc h1 h2⟩

/-! ### C1: behavior at and beyond the bounce limit -/

/-- Counterexample to C1 as stated: at depth 51 (which exceeds the limit of
50) a ray that misses everything still returns the background gradient, not
black. The ray points straight up, so the blend factor is 1 and the result
is the blue background color. -/
theorem color_depth_counterexample :
    color upRay emptyWorld 51 rng0 = .ok ⟨1/2, 7/10, 1⟩ ∧
    (⟨1/2, 7/10, 1⟩ : LinSrgb) ≠ (⟨0, 0, 0⟩ : LinSrgb) := by
  constructor
  · rw [color]
    have hhits : HittableEnum.hits emptyWorld upRay (1/1000) ⊤ = none := rfl
    rw [hhits]
    simp only [upRay_direction, LinSrgb.mix, Except.ok.injEq, LinSrgb.mk.injEq]
    norm_num
  · simp only [ne_eq, LinSrgb.mk.injEq]
    norm_num

/-- C1 (amended): at any depth at or above the bounce limit, the integrator
returns black when the ray hits something (no scattering is attempted), and
the background gradient when the ray misses; it recurses only below the
limit. -/
theorem color_depth_exhausted (ray : Ray) (world : HittableEnum) (bounce : ℕ)
    (rng : ℕ → RngDraw) (hb : BOUNCES ≤ bounce) :
    color ray world bounce rng =
      match HittableEnum.hits world ray (1/1000) ⊤ with
      | some _ => .ok ⟨0, 0, 0⟩
      | none => .ok (LinSrgb.mix ⟨1, 1, 1⟩ ⟨1/2, 7/10, 1⟩ ((ray.direction.y + 1) / 2)) := by
  rw [color]
  cases HittableEnum.hits world ray (1/1000) ⊤ with
  | none => rfl
  | some hr =>
    dsimp only
    rw [dif_neg (show ¬ bounce < BOUNCES by omega)]

/-- Witness for C1's amended statement at exactly the bounce limit. -/
theorem color_depth_exhausted_witness :
    BOUNCES ≤ 50 ∧
    color upRay emptyWorld 50 rng0 =
      match HittableEnum.hits emptyWorld upRay (1/1000) ⊤ with
      | some _ => .ok ⟨0, 0, 0⟩
      | none => .ok (LinSrgb.mix ⟨1, 1, 1⟩ ⟨1/2, 7/10, 1⟩ ((upRay.direction.y + 1) / 2)) :=
  ⟨by decide, color_depth_exhausted upRay emptyWorld 50 rng0 (by decide)⟩

/-! ### C5: total internal reflection boundary -/

theorem Vec3.normSq_mk (a b c : ℚ) :
    Vec3.normSq ⟨a, b, c⟩ = a * a + b * b + c * c := rfl

theorem Vec3.normalize_of_unit (v : Vec3) (h : v.normSq = 1) : v.normalize = v := by
  rw [Vec3.normalize, h, rsqrt_one]
  cases v
  simp [Vec3.divQ]

theorem refract_eq_if (v normal : Vec3) (ir : ℚ) :
    refract v normal ir =
      if 0 < 1 - ir * ir * (1 - v.normalize.dot normal * v.normalize.dot normal)
      then some (ir • (v.normalize - v.normalize.dot normal • normal) -
        rsqrt (1 - ir * ir * (1 - v.normalize.dot normal * v.normalize.dot normal)) • normal)
      else none := rfl

/-- C5 (amended): the dielectric falls back to a mirror reflection exactly
when the refraction discriminant is NOT positive (`refract` requires a
strictly positive discriminant, so the tangent case `disc = 0` also
reflects); only for a positive discriminant is the reflect/refract choice
made by comparing the uniform draw with the Schlick reflectance. -/
theorem dielectric_reflection_fallback (m : Dielectric) (ray : Ray)
    (hr : HitRecord) (n outward : Vec3) (ir cosine disc : ℚ) (d : RngDraw)
    (hn : hr.normal = some n)
    (ho : outward = if 0 < ray.direction.dot n then -n else n)
    (hi : ir = if 0 < ray.direction.dot n then m.index else 1 / m.index)
    (hcos : cosine = if 0 < ray.direction.dot n then m.index * ray.direction.dot n
      else -(ray.direction.dot n))
    (hdisc : disc = 1 - ir * ir *
      (1 - ray.direction.normalize.dot outward * ray.direction.normalize.dot outward)) :
    m.scatter ray hr d = .ok (some ⟨⟨1, 1, 1⟩, Ray.new hr.pos
      (if 0 < disc then
        (if d.uniform < m.schlick cosine then reflect ray.direction n
         else ir • (ray.direction.normalize - ray.direction.normalize.dot outward • outward) -
           rsqrt disc • outward)
       else reflect ray.direction n)⟩) := by
  subst ho hi hcos hdisc
  rw [dielectric_scatter_eq m ray hr n d hn, refract_eq_if]
  by_cases hd : 0 < 1 - (if 0 < ray.direction.dot n then m.index else 1 / m.index) *
      (if 0 < ray.direction.dot n then m.index else 1 / m.index) *
      (1 - ray.direction.normalize.dot (if 0 < ray.direction.dot n then -n else n) *
        ray.direction.normalize.dot (if 0 < ray.direction.dot n then -n else n))
  · simp only [if_pos hd]
  · simp only [if_neg hd]

/-- Concrete inputs exhibiting a refraction discriminant of exactly zero:
a dielectric of index 3/5 entered by the unit ray (3/5, -4/5, 0) against
normal (0, 1, 0) gives index ratio 5/3 and discriminant
1 - (25/9)(1 - 16/25) = 0. -/
def cexN : Vec3 := ⟨0, 1, 0⟩

def cexMat : Dielectric := ⟨3/5⟩

def cexRay : Ray := Ray.new ⟨0, 0, 0⟩ ⟨3/5, -4/5, 0⟩

def cexHr : HitRecord := ⟨1, ⟨0, 0, 0⟩, some cexN, .dielectric cexMat⟩

def cexDraw : RngDraw := ⟨⟨0, 0, 0⟩, 1/2⟩

theorem cexRay_direction : cexRay.direction = ⟨3/5, -4/5, 0⟩ := by
  show Vec3.normalize ⟨3/5, -4/5, 0⟩ = _
  rw [Vec3.normalize_of_unit]
  rw [Vec3.normSq_mk]
  norm_num

theorem cexRay_direction_normalize : cexRay.direction.normalize = ⟨3/5, -4/5, 0⟩ := by
  rw [cexRay_direction, Vec3.normalize_of_unit]
  rw [Vec3.normSq_mk]
  norm_num

/-- Counterexample to C5 as stated: at these inputs the refraction
discriminant is exactly zero — hence NOT negative — and the uniform draw
(1/2) is not below the Schlick reflectance, so per the claim the ray should
refract; but `refract` returns none at a zero discriminant and the code
unconditionally reflects, producing a scattered ray different from the
refracted one the claim requires. -/
theorem dielectric_tir_boundary_counterexample :
    1 - (5/3 : ℚ) * (5/3 : ℚ) *
      (1 - cexRay.direction.normalize.dot cexN * cexRay.direction.normalize.dot cexN) = 0 ∧
    refract cexRay.direction cexN (5/3) = none ∧
    ¬ (cexDraw.uniform < cexMat.schlick (-(cexRay.direction.dot cexN))) ∧
    cexMat.scatter cexRay cexHr cexDraw =
      .ok (some ⟨⟨1, 1, 1⟩, Ray.new cexHr.pos (reflect cexRay.direction cexN)⟩) ∧
    Ray.new cexHr.pos (reflect cexRay.direction cexN) ≠
      Ray.new cexHr.pos ((5/3 : ℚ) • (cexRay.direction.normalize -
        cexRay.direction.normalize.dot cexN • cexN) - rsqrt (0 : ℚ) • cexN) := by
  have hdot : cexRay.direction.dot cexN = -(4/5 : ℚ) := by
    rw [cexRay_direction, cexN, Vec3.dot]
    norm_num
  have hdotn : cexRay.direction.normalize.dot cexN = -(4/5 : ℚ) := by
    rw [cexRay_direction_normalize, cexN, Vec3.dot]
    norm_num
  have hdisc0 : 1 - (5/3 : ℚ) * (5/3 : ℚ) *
      (1 - cexRay.direction.normalize.dot cexN * cexRay.direction.normalize.dot cexN) = 0 := by
    rw [hdotn]
    norm_num
  have hschlick : cexMat.schlick (-(cexRay.direction.dot cexN)) = 157/2500 := by
    rw [hdot, Dielectric.schlick]
    show (((1 : ℚ) - cexMat.index) / (1 + cexMat.index)) ^ 2 +
      (1 - ((1 - cexMat.index) / (1 + cexMat.index)) ^ 2) * (1 - - -(4/5 : ℚ)) ^ 5 = 157/2500
    rw [show cexMat.index = (3/5 : ℚ) from rfl]
    norm_num
  have hrefl : reflect cexRay.direction cexN = ⟨3/5, 4/5, 0⟩ := by
    rw [reflect, hdot, cexRay_direction, cexN]
    simp only [Vec3.smul_def, Vec3.sub_def, Vec3.mk.injEq]
    norm_num
  have hrefr : (5/3 : ℚ) • (cexRay.direction.normalize -
      cexRay.direction.normalize.dot cexN • cexN) - rsqrt (0 : ℚ) • cexN =
      ⟨1, 0, 0⟩ := by
    rw [hdotn, cexRay_direction_normalize, cexN, rsqrt_zero]
    simp only [Vec3.smul_def, Vec3.sub_def, Vec3.mk.injEq]
    norm_num
  refine ⟨hdisc0, ?_, ?_, ?_, ?_⟩
  · rw [refract_eq_if, if_neg]
    rw [hdotn]
    norm_num
  · rw [hschlick]
    show ¬ ((1/2 : ℚ) < 157/2500)
    norm_num
  · rw [dielectric_scatter_eq cexMat cexRay cexHr cexN cexDraw rfl]
    have hc : ¬ (0 < cexRay.direction.dot cexN) := by
      rw [hdot]
      norm_num
    simp only [if_neg hc]
    have : refract cexRay.direction cexN (1 / cexMat.index) = none := by
      rw [show (1 : ℚ) / cexMat.index = 5/3 by rw [show cexMat.index = (3/5 : ℚ) from rfl]; norm_num]
      rw [refract_eq_if, if_neg]
      rw [hdotn]
      norm_num
    rw [this]
  · rw [hrefl, hrefr]
    intro h
    have h2 : Vec3.normalize ⟨3/5, 4/5, 0⟩ = Vec3.normalize ⟨1, 0, 0⟩ := congrArg Ray.direction h
    rw [Vec3.normalize_of_unit ⟨3/5, 4/5, 0⟩ (by rw [Vec3.normSq_mk]; norm_num),
      Vec3.normalize_of_unit ⟨1, 0, 0⟩ (by rw [Vec3.normSq_mk]; norm_num)] at h2
    simp only [Vec3.mk.injEq] at h2
    norm_num at h2

/-- Witness for the amended C5 at the zero-discriminant inputs: the choice
variables evaluate to outward = n, ratio 5/3, cosine 4/5, discriminant 0,
and the scattered direction is the reflection branch. -/
theorem dielectric_reflection_fallback_witness :
    cexHr.normal = some cexN ∧
    cexN = (if 0 < cexRay.direction.dot cexN then -cexN else cexN) ∧
    (5/3 : ℚ) = (if 0 < cexRay.direction.dot cexN then cexMat.index else 1 / cexMat.index) ∧
    (4/5 : ℚ) = (if 0 < cexRay.direction.dot cexN then cexMat.index * cexRay.direction.dot cexN
      else -(cexRay.direction.dot cexN)) ∧
    (0 : ℚ) = 1 - (5/3 : ℚ) * (5/3 : ℚ) *
      (1 - cexRay.direction.normalize.dot cexN * cexRay.direction.normalize.dot cexN) ∧
    cexMat.scatter cexRay cexHr cexDraw = .ok (some ⟨⟨1, 1, 1⟩, Ray.new cexHr.pos
      (if 0 < (0 : ℚ) then
        (if cexDraw.uniform < cexMat.schlick (4/5) then reflect cexRay.direction cexN
         else (5/3 : ℚ) • (cexRay.direction.normalize -
             cexRay.direction.normalize.dot cexN • cexN) - rsqrt (0 : ℚ) • cexN)
       else reflect cexRay.direction cexN)⟩) := by
  have hdot : cexRay.direction.dot cexN = -(4/5 : ℚ) := by
    rw [cexRay_direction, cexN, Vec3.dot]
    norm_num
  have hdotn : cexRay.direction.normalize.dot cexN = -(4/5 : ℚ) := by
    rw [cexRay_direction_normalize, cexN, Vec3.dot]
    norm_num
  have hc : ¬ (0 < cexRay.direction.dot cexN) := by
    rw [hdot]
    norm_num
  have ho : cexN = (if 0 < cexRay.direction.dot cexN then -cexN else cexN) := by
    rw [if_neg hc]
  have hi : (5/3 : ℚ) = (if 0 < cexRay.direction.dot cexN then cexMat.index
      else 1 / cexMat.index) := by
    rw [if_neg hc, show cexMat.index = (3/5 : ℚ) from rfl]
    norm_num
  have hcos : (4/5 : ℚ) = (if 0 < cexRay.direction.dot cexN
      then cexMat.index * cexRay.direction.dot cexN else -(cexRay.direction.dot cexN)) := by
    rw [if_neg hc, hdot]
    norm_num
  have hdisc : (0 : ℚ) = 1 - (5/3 : ℚ) * (5/3 : ℚ) *
      (1 - cexRay.direction.normalize.dot cexN * cexRay.direction.normalize.dot cexN) := by
    rw [hdotn]
    norm_num
  exact ⟨rfl, ho, hi, hcos, hdisc,
    dielectric_reflection_fallback cexMat cexRay cexHr cexN cexN (5/3) (4/5) 0 cexDraw
      rfl ho hi hcos hdisc⟩

/-! ### Interval machinery for the nearest-hit query -/

/-- Restriction of an optional hit to the half-open window upper bound. -/
def clipHit (tm : WithTop ℚ) : Option HitRecord → Option HitRecord
  | some rec => if ((rec.t : ℚ) : WithTop ℚ) < tm then some rec else none
  | none => none

@[simp] theorem clipHit_none (tm : WithTop ℚ) : clipHit tm none = none := rfl

theorem clipHit_some (tm : WithTop ℚ) (rec : HitRecord) :
    clipHit tm (some rec) =
      if ((rec.t : ℚ) : WithTop ℚ) < tm then some rec else none := rfl

/-- Any hit a sphere reports lies in the query window. -/
theorem Sphere.hits_bounds (s : Sphere) (ray : Ray) (tmin : ℚ)
    (tmax : WithTop ℚ) (rec : HitRecord) (h : s.hits ray tmin tmax = some rec) :
    tmin ≤ rec.t ∧ ((rec.t : ℚ) : WithTop ℚ) < tmax := by
  simp only [Sphere.hits] at h
  split at h
  · split at h
    · next hcond =>
      simp only [Option.some.injEq] at h
      subst h
      exact hcond
    · split at h
      · next hcond =>
        simp only [Option.some.injEq] at h
        subst h
        exact hcond
      · exact absurd h (by simp)
  · exact absurd h (by simp)

/-- Any hit a sphere reports has a present normal (C10, sphere case). -/
theorem Sphere.hits_normal (s : Sphere) (ray : Ray) (tmin : ℚ)
    (tmax : WithTop ℚ) (rec : HitRecord) (h : s.hits ray tmin tmax = some rec) :
    rec.normal.isSome = true := by
  simp only [Sphere.hits, Sphere.mkHit] at h
  split at h
  · split at h
    · simp only [Option.some.injEq] at h
      subst h
      rfl
    · split at h
      · simp only [Option.some.injEq] at h
        subst h
        rfl
      · exact absurd h (by simp)
  · exact absurd h (by simp)

/-- Any hit a sphere reports carries the sphere's material. -/
theorem Sphere.hits_material (s : Sphere) (ray : Ray) (tmin : ℚ)
    (tmax : WithTop ℚ) (rec : HitRecord) (h : s.hits ray tmin tmax = some rec) :
    rec.material = s.material := by
  simp only [Sphere.hits, Sphere.mkHit] at h
  split at h
  · split at h
    · simp only [Option.some.injEq] at h
      subst h
      rfl
    · split at h
      · simp only [Option.some.injEq] at h
        subst h
        rfl
      · exact absurd h (by simp)
  · exact absurd h (by simp)

/-- The generic two-root window restriction argument: narrowing the upper
bound of the half-open window turns the first-root-in-window result into
its clip, as long as the first root tried is the smaller one. -/
theorem twoRootClip (t1 t2 : ℚ) (h12 : t1 ≤ t2) (tmin : ℚ)
    (tmax tm2 : WithTop ℚ) (hle : tm2 ≤ tmax) (X1 X2 : HitRecord)
    (ht1 : X1.t = t1) (ht2 : X2.t = t2) :
    (if tmin ≤ t1 ∧ ((t1 : ℚ) : WithTop ℚ) < tm2 then some X1
     else if tmin ≤ t2 ∧ ((t2 : ℚ) : WithTop ℚ) < tm2 then some X2 else none) =
    clipHit tm2 (if tmin ≤ t1 ∧ ((t1 : ℚ) : WithTop ℚ) < tmax then some X1
     else if tmin ≤ t2 ∧ ((t2 : ℚ) : WithTop ℚ) < tmax then some X2 else none) := by
  have hcoe : ((t1 : ℚ) : WithTop ℚ) ≤ ((t2 : ℚ) : WithTop ℚ) := by exact_mod_cast h12
  by_cases hA1 : tmin ≤ t1
  · by_cases hB1 : ((t1 : ℚ) : WithTop ℚ) < tm2
    · rw [if_pos ⟨hA1, hB1⟩, if_pos ⟨hA1, lt_of_lt_of_le hB1 hle⟩, clipHit_some, ht1,
        if_pos hB1]
    · have hB2f : ¬ (((t2 : ℚ) : WithTop ℚ) < tm2) :=
        fun hc => hB1 (lt_of_le_of_lt hcoe hc)
      rw [if_neg (show ¬ (tmin ≤ t1 ∧ ((t1 : ℚ) : WithTop ℚ) < tm2) from fun hc => hB1 hc.2),
        if_neg (show ¬ (tmin ≤ t2 ∧ ((t2 : ℚ) : WithTop ℚ) < tm2) from fun hc => hB2f hc.2)]
      by_cases hB1x : ((t1 : ℚ) : WithTop ℚ) < tmax
      · rw [if_pos ⟨hA1, hB1x⟩, clipHit_some, ht1, if_neg hB1]
      · have hB2xf : ¬ (((t2 : ℚ) : WithTop ℚ) < tmax) :=
          fun hc => hB1x (lt_of_le_of_lt hcoe hc)
        rw [if_neg (show ¬ (tmin ≤ t1 ∧ ((t1 : ℚ) : WithTop ℚ) < tmax) from fun hc => hB1x hc.2),
          if_neg (show ¬ (tmin ≤ t2 ∧ ((t2 : ℚ) : WithTop ℚ) < tmax) from fun hc => hB2xf hc.2),
          clipHit_none]
  · rw [if_neg (show ¬ (tmin ≤ t1 ∧ ((t1 : ℚ) : WithTop ℚ) < tm2) from fun hc => hA1 hc.1),
      if_neg (show ¬ (tmin ≤ t1 ∧ ((t1 : ℚ) : WithTop ℚ) < tmax) from fun hc => hA1 hc.1)]
    by_cases hA2 : tmin ≤ t2
    · by_cases hB2 : ((t2 : ℚ) : WithTop ℚ) < tm2
      · rw [if_pos ⟨hA2, hB2⟩, if_pos ⟨hA2, lt_of_lt_of_le hB2 hle⟩, clipHit_some, ht2,
          if_pos hB2]
      · rw [if_neg (show ¬ (tmin ≤ t2 ∧ ((t2 : ℚ) : WithTop ℚ) < tm2) from fun hc => hB2 hc.2)]
        by_cases hB2x : ((t2 : ℚ) : WithTop ℚ) < tmax
        · rw [if_pos ⟨hA2, hB2x⟩, clipHit_some, ht2, if_neg hB2]
        · rw [if_neg (show ¬ (tmin ≤ t2 ∧ ((t2 : ℚ) : WithTop ℚ) < tmax) from fun hc => hB2x hc.2),
            clipHit_none]
    · rw [if_neg (show ¬ (tmin ≤ t2 ∧ ((t2 : ℚ) : WithTop ℚ) < tm2) from fun hc => hA2 hc.1),
        if_neg (show ¬ (tmin ≤ t2 ∧ ((t2 : ℚ) : WithTop ℚ) < tmax) from fun hc => hA2 hc.1),
        clipHit_none]

/-- Narrowing the window of a sphere query clips its result. -/
theorem Sphere.hits_clip (s : Sphere) (ray : Ray) (tmin : ℚ)
    (tmax tm2 : WithTop ℚ) (hle : tm2 ≤ tmax) :
    s.hits ray tmin tm2 = clipHit tm2 (s.hits ray tmin tmax) := by
  have smaller_first : ∀ (b r : ℚ), 0 ≤ r →
      (-b + r * (-1)) / 2 ≤ (-b + r * 1) / 2 := by
    intro b r hr
    linarith
  simp only [Sphere.hits]
  split
  · next hD =>
    exact twoRootClip _ _ (smaller_first _ _ (rsqrt_nonneg _)) tmin tmax tm2 hle _ _ rfl rfl
  · next hD =>
    rw [clipHit_none]

/-! ### The pruning fold of HittableList::hits -/

theorem hits_go_cons_none (ray : Ray) (tmin : ℚ) (h : HittableEnum)
    (rest : List HittableEnum) (bestT : WithTop ℚ) (best : Option HitRecord)
    (hh : h.hits ray tmin bestT = none) :
    HittableEnum.hits.go ray tmin (h :: rest) bestT best =
      HittableEnum.hits.go ray tmin rest bestT best := by
  rw [HittableEnum.hits_go_cons, hh]

theorem hits_go_cons_some (ray : Ray) (tmin : ℚ) (h : HittableEnum)
    (rest : List HittableEnum) (bestT : WithTop ℚ) (best : Option HitRecord)
    (r : HitRecord) (hh : h.hits ray tmin bestT = some r) :
    HittableEnum.hits.go ray tmin (h :: rest) bestT best =
      if ((r.t : ℚ) : WithTop ℚ) < bestT then
        HittableEnum.hits.go ray tmin rest (r.t : ℚ) (some r)
      else HittableEnum.hits.go ray tmin rest bestT best := by
  rw [HittableEnum.hits_go_cons, hh]

/-- Window bounds for any hittable, phrased as a standalone predicate. -/
def HitBounds (h : HittableEnum) : Prop :=
  ∀ ray tmin tmax rec, h.hits ray tmin tmax = some rec →
    tmin ≤ rec.t ∧ ((rec.t : ℚ) : WithTop ℚ) < tmax

/-- Window-restriction behavior for any hittable. -/
def HitClip (h : HittableEnum) : Prop :=
  ∀ ray tmin (tmax tm2 : WithTop ℚ), tm2 ≤ tmax →
    h.hits ray tmin tm2 = clipHit tm2 (h.hits ray tmin tmax)

/-- Every record the pruning fold returns satisfies any predicate that all
member hits satisfy (and that the initial accumulator satisfies). -/
theorem go_pred (P : HitRecord → Prop) (ray : Ray) (tmin : ℚ) :
    ∀ (hs : List HittableEnum) (bestT : WithTop ℚ) (best : Option HitRecord),
      (∀ h ∈ hs, ∀ tm rec, h.hits ray tmin tm = some rec → P rec) →
      (∀ b, best = some b → P b) →
      ∀ rec, HittableEnum.hits.go ray tmin hs bestT best = some rec → P rec := by
  intro hs
  induction hs with
  | nil =>
    intro bestT best _ hbest rec h
    rw [HittableEnum.hits_go_nil] at h
    exact hbest rec h
  | cons hd rest ih =>
    intro bestT best hmem hbest rec h
    cases hh : hd.hits ray tmin bestT with
    | none =>
      rw [hits_go_cons_none ray tmin hd rest bestT best hh] at h
      exact ih bestT best (fun x hx => hmem x (List.mem_cons_of_mem _ hx)) hbest rec h
    | some r =>
      rw [hits_go_cons_some ray tmin hd rest bestT best r hh] at h
      have hPr : P r := hmem hd (List.mem_cons_self hd rest) bestT r hh
      by_cases hlt : ((r.t : ℚ) : WithTop ℚ) < bestT
      · rw [if_pos hlt] at h
        exact ih _ _ (fun x hx => hmem x (List.mem_cons_of_mem _ hx))
          (fun b hb => by rw [← Option.some.inj hb]; exact hPr) rec h
      · rw [if_neg hlt] at h
        exact ih bestT best (fun x hx => hmem x (List.mem_cons_of_mem _ hx)) hbest rec h

/-- The pruning fold respects the window bounds when all members do. -/
theorem go_bounds (ray : Ray) (tmin : ℚ) (tmax : WithTop ℚ) :
    ∀ (hs : List HittableEnum) (bestT : WithTop ℚ) (best : Option HitRecord),
      (∀ h ∈ hs, HitBounds h) →
      bestT ≤ tmax →
      (∀ b, best = some b → tmin ≤ b.t ∧ ((b.t : ℚ) : WithTop ℚ) < tmax) →
      ∀ rec, HittableEnum.hits.go ray tmin hs bestT best = some rec →
        tmin ≤ rec.t ∧ ((rec.t : ℚ) : WithTop ℚ) < tmax := by
  intro hs
  induction hs with
  | nil =>
    intro bestT best _ _ hbest rec h
    rw [HittableEnum.hits_go_nil] at h
    exact hbest rec h
  | cons hd rest ih =>
    intro bestT best hmem hbtle hbest rec h
    cases hh : hd.hits ray tmin bestT with
    | none =>
      rw [hits_go_cons_none ray tmin hd rest bestT best hh] at h
      exact ih bestT best (fun x hx => hmem x (List.mem_cons_of_mem _ hx)) hbtle hbest rec h
    | some r =>
      rw [hits_go_cons_some ray tmin hd rest bestT best r hh] at h
      have hrb := hmem hd (List.mem_cons_self hd rest) ray tmin bestT r hh
      have hrb2 : tmin ≤ r.t ∧ ((r.t : ℚ) : WithTop ℚ) < tmax :=
        ⟨hrb.1, lt_of_lt_of_le hrb.2 hbtle⟩
      by_cases hlt : ((r.t : ℚ) : WithTop ℚ) < bestT
      · rw [if_pos hlt] at h
        exact ih _ _ (fun x hx => hmem x (List.mem_cons_of_mem _ hx)) hrb2.2.le
          (fun b hb => by rw [← Option.some.inj hb]; exact hrb2) rec h
      · rw [if_neg hlt] at h
        exact ih bestT best (fun x hx => hmem x (List.mem_cons_of_mem _ hx)) hbtle hbest rec h

/-! ### The specification-side nearest-hit fold -/

/-- Specification-side fold transcribed from the claim: query every member
over the FULL window and keep the hit of strictly smallest t, the earliest
member in iteration order winning exact ties. -/
def specGo (ray : Ray) (tmin : ℚ) (tmax : WithTop ℚ) :
    List HittableEnum → Option HitRecord → Option HitRecord
  | [], best => best
  | h :: rest, best =>
    match h.hits ray tmin tmax, best with
    | none, _ => specGo ray tmin tmax rest best
    | some rec, none => specGo ray tmin tmax rest (some rec)
    | some rec, some b =>
      if rec.t < b.t then specGo ray tmin tmax rest (some rec)
      else specGo ray tmin tmax rest best

/-- The claim's nearest-hit function over a member list. -/
def specNearestHit (hittables : List HittableEnum) (ray : Ray) (tmin : ℚ)
    (tmax : WithTop ℚ) : Option HitRecord :=
  specGo ray tmin tmax hittables none

@[simp] theorem specGo_nil (ray : Ray) (tmin : ℚ) (tmax : WithTop ℚ)
    (best : Option HitRecord) : specGo ray tmin tmax [] best = best := rfl

theorem specGo_cons_none (ray : Ray) (tmin : ℚ) (tmax : WithTop ℚ)
    (h : HittableEnum) (rest : List HittableEnum) (best : Option HitRecord)
    (hh : h.hits ray tmin tmax = none) :
    specGo ray tmin tmax (h :: rest) best = specGo ray tmin tmax rest best := by
  rw [show specGo ray tmin tmax (h :: rest) best =
    (match h.hits ray tmin tmax, best with
      | none, _ => specGo ray tmin tmax rest best
      | some rec, none => specGo ray tmin tmax rest (some rec)
      | some rec, some b =>
        if rec.t < b.t then specGo ray tmin tmax rest (some rec)
        else specGo ray tmin tmax rest best) from rfl, hh]

theorem specGo_cons_some_none (ray : Ray) (tmin : ℚ) (tmax : WithTop ℚ)
    (h : HittableEnum) (rest : List HittableEnum) (r : HitRecord)
    (hh : h.hits ray tmin tmax = some r) :
    specGo ray tmin tmax (h :: rest) none = specGo ray tmin tmax rest (some r) := by
  rw [show specGo ray tmin tmax (h :: rest) none =
    (match h.hits ray tmin tmax, (none : Option HitRecord) with
      | none, _ => specGo ray tmin tmax rest none
      | some rec, none => specGo ray tmin tmax rest (some rec)
      | some rec, some b =>
        if rec.t < b.t then specGo ray tmin tmax rest (some rec)
        else specGo ray tmin tmax rest none) from rfl, hh]

theorem specGo_cons_some_some (ray : Ray) (tmin : ℚ) (tmax : WithTop ℚ)
    (h : HittableEnum) (rest : List HittableEnum) (r b : HitRecord)
    (hh : h.hits ray tmin tmax = some r) :
    specGo ray tmin tmax (h :: rest) (some b) =
      if r.t < b.t then specGo ray tmin tmax rest (some r)
      else specGo ray tmin tmax rest (some b) := by
  rw [show specGo ray tmin tmax (h :: rest) (some b) =
    (match h.hits ray tmin tmax, (some b : Option HitRecord) with
      | none, _ => specGo ray tmin tmax rest (some b)
      | some rec, none => specGo ray tmin tmax rest (some rec)
      | some rec, some b2 =>
        if rec.t < b2.t then specGo ray tmin tmax rest (some rec)
        else specGo ray tmin tmax rest (some b)) from rfl, hh]

/-- Running best bound of the pruning fold: the full upper bound when no
hit is stored, else the stored hit's t. -/
def bestBound (tmax : WithTop ℚ) : Option HitRecord → WithTop ℚ
  | none => tmax
  | some b => ((b.t : ℚ) : WithTop ℚ)

/-- Lockstep correspondence: given window bounds and window restriction for
every member, the pruning fold of the source equals the full-window fold of
the specification. -/
theorem go_eq_specGo (ray : Ray) (tmin : ℚ) (tmax : WithTop ℚ) :
    ∀ (hs : List HittableEnum) (best : Option HitRecord),
      (∀ h ∈ hs, HitBounds h ∧ HitClip h) →
      (∀ b, best = some b → tmin ≤ b.t ∧ ((b.t : ℚ) : WithTop ℚ) < tmax) →
      HittableEnum.hits.go ray tmin hs (bestBound tmax best) best =
        specGo ray tmin tmax hs best := by
  intro hs
  induction hs with
  | nil => intro best _ _; rw [HittableEnum.hits_go_nil, specGo_nil]
  | cons hd rest ih =>
    intro best hmem hbest
    obtain ⟨hdB, hdC⟩ := hmem hd (List.mem_cons_self hd rest)
    have hmem2 : ∀ h ∈ rest, HitBounds h ∧ HitClip h :=
      fun x hx => hmem x (List.mem_cons_of_mem _ hx)
    have hbtle : bestBound tmax best ≤ tmax := by
      cases hb : best with
      | none => exact le_rfl
      | some b => exact (hbest b hb).2.le
    have hrw : hd.hits ray tmin (bestBound tmax best) =
        clipHit (bestBound tmax best) (hd.hits ray tmin tmax) :=
      hdC ray tmin tmax _ hbtle
    cases hfull : hd.hits ray tmin tmax with
    | none =>
      rw [hfull, clipHit_none] at hrw
      rw [hits_go_cons_none ray tmin hd rest _ best hrw,
        specGo_cons_none ray tmin tmax hd rest best hfull]
      exact ih best hmem2 hbest
    | some r =>
      rw [hfull, clipHit_some] at hrw
      have hrbounds := hdB ray tmin tmax r hfull
      by_cases hlt : ((r.t : ℚ) : WithTop ℚ) < bestBound tmax best
      · rw [if_pos hlt] at hrw
        rw [hits_go_cons_some ray tmin hd rest _ best r hrw, if_pos hlt]
        have hnew : ∀ b, (some r : Option HitRecord) = some b →
            tmin ≤ b.t ∧ ((b.t : ℚ) : WithTop ℚ) < tmax :=
          fun b hb => by rw [← Option.some.inj hb]; exact hrbounds
        cases hb : best with
        | none =>
          rw [specGo_cons_some_none ray tmin tmax hd rest r hfull]
          exact ih (some r) hmem2 hnew
        | some b =>
          rw [hb] at hlt
          simp only [bestBound] at hlt
          have hltq : r.t < b.t := by exact_mod_cast hlt
          rw [specGo_cons_some_some ray tmin tmax hd rest r b hfull, if_pos hltq]
          exact ih (some r) hmem2 hnew
      · rw [if_neg hlt] at hrw
        rw [hits_go_cons_none ray tmin hd rest _ best hrw]
        cases hb : best with
        | none =>
          exfalso
          rw [hb] at hlt
          simp only [bestBound] at hlt
          exact hlt hrbounds.2
        | some b =>
          rw [hb] at hlt
          simp only [bestBound] at hlt
          have hltq : ¬ (r.t < b.t) := fun hc => hlt (by exact_mod_cast hc)
          rw [specGo_cons_some_some ray tmin tmax hd rest r b hfull, if_neg hltq]
          exact ih (some b) hmem2 (fun b2 hb2 => hbest b2 (hb.trans hb2))

/-- Narrowing the window commutes with the specification fold, given
window restriction for every member. -/
theorem specGo_clip (ray : Ray) (tmin : ℚ) (tmax tm2 : WithTop ℚ)
    (hle : tm2 ≤ tmax) :
    ∀ (hs : List HittableEnum) (best : Option HitRecord),
      (∀ h ∈ hs, HitClip h) →
      specGo ray tmin tm2 hs (clipHit tm2 best) =
        clipHit tm2 (specGo ray tmin tmax hs best) := by
  intro hs
  induction hs with
  | nil => intro best _; rw [specGo_nil, specGo_nil]
  | cons hd rest ih =>
    intro best hmem
    have hdC := hmem hd (List.mem_cons_self hd rest)
    have hmem2 : ∀ h ∈ rest, HitClip h := fun x hx => hmem x (List.mem_cons_of_mem _ hx)
    have hrw : hd.hits ray tmin tm2 = clipHit tm2 (hd.hits ray tmin tmax) :=
      hdC ray tmin tmax tm2 hle
    cases hfull : hd.hits ray tmin tmax with
    | none =>
      rw [hfull, clipHit_none] at hrw
      rw [specGo_cons_none ray tmin tm2 hd rest _ hrw,
        specGo_cons_none ray tmin tmax hd rest best hfull]
      exact ih best hmem2
    | some r =>
      rw [hfull, clipHit_some] at hrw
      by_cases hr2 : ((r.t : ℚ) : WithTop ℚ) < tm2
      · rw [if_pos hr2] at hrw
        cases best with
        | none =>
          rw [show clipHit tm2 (none : Option HitRecord) = none from rfl,
            specGo_cons_some_none ray tmin tm2 hd rest r hrw,
            specGo_cons_some_none ray tmin tmax hd rest r hfull]
          have := ih (some r) hmem2
          rw [clipHit_some, if_pos hr2] at this
          exact this
        | some b =>
          by_cases hb2 : ((b.t : ℚ) : WithTop ℚ) < tm2
          · rw [show clipHit tm2 (some b) = some b from by rw [clipHit_some, if_pos hb2],
              specGo_cons_some_some ray tmin tm2 hd rest r b hrw,
              specGo_cons_some_some ray tmin tmax hd rest r b hfull]
            by_cases hrb : r.t < b.t
            · rw [if_pos hrb, if_pos hrb]
              have := ih (some r) hmem2
              rw [clipHit_some, if_pos hr2] at this
              exact this
            · rw [if_neg hrb, if_neg hrb]
              have := ih (some b) hmem2
              rw [clipHit_some, if_pos hb2] at this
              exact this
          · rw [show clipHit tm2 (some b) = none from by rw [clipHit_some, if_neg hb2],
              specGo_cons_some_none ray tmin tm2 hd rest r hrw,
              specGo_cons_some_some ray tmin tmax hd rest r b hfull]
            have hrb : r.t < b.t := by
              rcases lt_or_le r.t b.t with h | h
              · exact h
              · exfalso
                apply hb2
                exact lt_of_le_of_lt (by exact_mod_cast h) hr2
            rw [if_pos hrb]
            have := ih (some r) hmem2
            rw [clipHit_some, if_pos hr2] at this
            exact this
      · rw [if_neg hr2] at hrw
        cases best with
        | none =>
          rw [show clipHit tm2 (none : Option HitRecord) = none from rfl,
            specGo_cons_none ray tmin tm2 hd rest _ hrw,
            specGo_cons_some_none ray tmin tmax hd rest r hfull]
          have := ih (some r) hmem2
          rw [clipHit_some, if_neg hr2] at this
          exact this
        | some b =>
          rw [specGo_cons_some_some ray tmin tmax hd rest r b hfull]
          by_cases hrb : r.t < b.t
          · rw [if_pos hrb]
            have hb2 : ¬ (((b.t : ℚ) : WithTop ℚ) < tm2) := by
              intro hc
              apply hr2
              exact lt_trans (by exact_mod_cast hrb) hc
            rw [show clipHit tm2 (some b) = none from by rw [clipHit_some, if_neg hb2],
              specGo_cons_none ray tmin tm2 hd rest _ hrw]
            have := ih (some r) hmem2
            rw [clipHit_some, if_neg hr2] at this
            exact this
          · rw [if_neg hrb,
              show clipHit tm2 (some b) = specGo ray tmin tm2 [] (clipHit tm2 (some b)) from rfl,
              specGo_nil]
            rw [specGo_cons_none ray tmin tm2 hd rest _ hrw]
            exact ih (some b) hmem2

/-- Window bounds and window restriction hold for every hittable, by
structural induction through nested lists. -/
theorem hits_bounds_clip : ∀ h : HittableEnum, HitBounds h ∧ HitClip h
  | .sphere s =>
    ⟨fun ray tmin tmax rec h => Sphere.hits_bounds s ray tmin tmax rec h,
     fun ray tmin tmax tm2 hle => Sphere.hits_clip s ray tmin tmax tm2 hle⟩
  | .list hs => by
    have ih : ∀ h2 ∈ hs, HitBounds h2 ∧ HitClip h2 := fun h2 hm =>
      have : sizeOf h2 < 1 + sizeOf hs :=
        Nat.lt_trans (List.sizeOf_lt_of_mem hm) (by omega)
      hits_bounds_clip h2
    constructor
    · intro ray tmin tmax rec h
      rw [HittableEnum.hits_list] at h
      exact go_bounds ray tmin tmax hs tmax none (fun x hx => (ih x hx).1) le_rfl
        (by intro b hb; cases hb) rec h
    · intro ray tmin tmax tm2 hle
      rw [HittableEnum.hits_list, HittableEnum.hits_list]
      show HittableEnum.hits.go ray tmin hs tm2 none = _
      have e2 := go_eq_specGo ray tmin tm2 hs none (fun x hx =>
        ⟨(ih x hx).1, (ih x hx).2⟩) (by intro b hb; cases hb)
      have e3 := go_eq_specGo ray tmin tmax hs none (fun x hx =>
        ⟨(ih x hx).1, (ih x hx).2⟩) (by intro b hb; cases hb)
      have e4 := specGo_clip ray tmin tmax tm2 hle hs none (fun x hx => (ih x hx).2)
      rw [show bestBound tm2 (none : Option HitRecord) = tm2 from rfl] at e2
      rw [show bestBound tmax (none : Option HitRecord) = tmax from rfl] at e3
      rw [show clipHit tm2 (none : Option HitRecord) = none from rfl] at e4
      show HittableEnum.hits.go ray tmin hs tm2 none =
        clipHit tm2 (HittableEnum.hits.go ray tmin hs tmax none)
      rw [e2, e3, e4]
termination_by h => sizeOf h

/-- The record the specification fold returns has minimal t: it is at most
the initial best's t and at most the t of any member hit. -/
theorem specGo_min (ray : Ray) (tmin : ℚ) (tmax : WithTop ℚ) :
    ∀ (hs : List HittableEnum) (best : Option HitRecord) (rec : HitRecord),
      specGo ray tmin tmax hs best = some rec →
      (∀ b, best = some b → rec.t ≤ b.t) ∧
      (∀ h ∈ hs, ∀ rec2, h.hits ray tmin tmax = some rec2 → rec.t ≤ rec2.t) := by
  intro hs
  induction hs with
  | nil =>
    intro best rec h
    rw [specGo_nil] at h
    refine ⟨fun b hb => ?_, fun h2 hm => absurd hm (List.not_mem_nil _)⟩
    rw [← Option.some.inj (h.symm.trans hb)]
  | cons hd rest ih =>
    intro best rec h
    cases hfull : hd.hits ray tmin tmax with
    | none =>
      rw [specGo_cons_none ray tmin tmax hd rest best hfull] at h
      obtain ⟨hb, hmem⟩ := ih best rec h
      refine ⟨hb, fun h2 hm rec2 hr2 => ?_⟩
      rcases List.mem_cons.mp hm with rfl | hm2
      · rw [hfull] at hr2
        cases hr2
      · exact hmem h2 hm2 rec2 hr2
    | some r =>
      cases best with
      | none =>
        rw [specGo_cons_some_none ray tmin tmax hd rest r hfull] at h
        obtain ⟨hb, hmem⟩ := ih (some r) rec h
        have hrr : rec.t ≤ r.t := hb r rfl
        refine ⟨fun b hb2 => Option.noConfusion hb2, fun h2 hm rec2 hr2 => ?_⟩
        rcases List.mem_cons.mp hm with rfl | hm2
        · rw [hfull] at hr2
          rw [← Option.some.inj hr2]
          exact hrr
        · exact hmem h2 hm2 rec2 hr2
      | some b =>
        rw [specGo_cons_some_some ray tmin tmax hd rest r b hfull] at h
        by_cases hrb : r.t < b.t
        · rw [if_pos hrb] at h
          obtain ⟨hb, hmem⟩ := ih (some r) rec h
          have hrr : rec.t ≤ r.t := hb r rfl
          refine ⟨fun b2 hb2 => ?_, fun h2 hm rec2 hr2 => ?_⟩
          · rw [← Option.some.inj hb2]
            exact le_trans hrr hrb.le
          · rcases List.mem_cons.mp hm with rfl | hm2
            · rw [hfull] at hr2
              rw [← Option.some.inj hr2]
              exact hrr
            · exact hmem h2 hm2 rec2 hr2
        · rw [if_neg hrb] at h
          obtain ⟨hb, hmem⟩ := ih (some b) rec h
          have hbb : rec.t ≤ b.t := hb b rfl
          refine ⟨fun b2 hb2 => by rw [← Option.some.inj hb2]; exact hbb,
            fun h2 hm rec2 hr2 => ?_⟩
          rcases List.mem_cons.mp hm with rfl | hm2
          · rw [hfull] at hr2
            rw [← Option.some.inj hr2]
            exact le_trans hbb (not_lt.mp hrb)
          · exact hmem h2 hm2 rec2 hr2

/-- If no member is struck, the specification fold reports no hit. -/
theorem specGo_none_of (ray : Ray) (tmin : ℚ) (tmax : WithTop ℚ) :
    ∀ (hs : List HittableEnum), (∀ h ∈ hs, h.hits ray tmin tmax = none) →
      specGo ray tmin tmax hs none = none := by
  intro hs
  induction hs with
  | nil => intro _; rfl
  | cons hd rest ih =>
    intro hmem
    rw [specGo_cons_none ray tmin tmax hd rest none (hmem hd (List.mem_cons_self hd rest))]
    exact ih (fun x hx => hmem x (List.mem_cons_of_mem _ hx))

/-! ### C2: the aggregate nearest-hit query -/

/-- C2: `HittableList::hits` computes exactly the specification-side
nearest hit (query every member over the full window, keep the strictly
smallest t, earliest member wins exact ties); consequently its result is
never farther than any member hit, and it is none when no member is
struck. -/
theorem hittableList_hits_nearest (hs : List HittableEnum) (ray : Ray)
    (tmin : ℚ) (tmax : WithTop ℚ) (hle : ((tmin : ℚ) : WithTop ℚ) ≤ tmax) :
    HittableList.hits hs ray tmin tmax = specNearestHit hs ray tmin tmax ∧
    (∀ rec, HittableList.hits hs ray tmin tmax = some rec →
      ∀ h ∈ hs, ∀ rec2, h.hits ray tmin tmax = some rec2 → rec.t ≤ rec2.t) ∧
    ((∀ h ∈ hs, h.hits ray tmin tmax = none) →
      HittableList.hits hs ray tmin tmax = none) := by
  have heq : HittableList.hits hs ray tmin tmax = specNearestHit hs ray tmin tmax := by
    show HittableEnum.hits.go ray tmin hs tmax none = specGo ray tmin tmax hs none
    have hgo := go_eq_specGo ray tmin tmax hs none
      (fun x _ => hits_bounds_clip x) (by intro b hb; cases hb)
    rw [show bestBound tmax (none : Option HitRecord) = tmax from rfl] at hgo
    exact hgo
  refine ⟨heq, ?_, ?_⟩
  · intro rec h
    rw [heq] at h
    exact (specGo_min ray tmin tmax hs none rec h).2
  · intro hnone
    rw [heq]
    exact specGo_none_of ray tmin tmax hs hnone

/-- A second sphere farther along the -z axis, for the two-sphere witness
scene. -/
def sphFar : Sphere := ⟨⟨0, 0, -6⟩, 1, mat0⟩

/-- Witness for C2 on a two-sphere scene along the ray's path. -/
theorem hittableList_hits_nearest_witness :
    (((1/1000 : ℚ) : WithTop ℚ) ≤ (⊤ : WithTop ℚ)) ∧
    (HittableList.hits [.sphere sph0, .sphere sphFar] ray0 (1/1000) ⊤ =
        specNearestHit [.sphere sph0, .sphere sphFar] ray0 (1/1000) ⊤ ∧
      (∀ rec, HittableList.hits [.sphere sph0, .sphere sphFar] ray0 (1/1000) ⊤ = some rec →
        ∀ h ∈ [HittableEnum.sphere sph0, HittableEnum.sphere sphFar],
          ∀ rec2, h.hits ray0 (1/1000) ⊤ = some rec2 → rec.t ≤ rec2.t) ∧
      ((∀ h ∈ [HittableEnum.sphere sph0, HittableEnum.sphere sphFar],
          h.hits ray0 (1/1000) ⊤ = none) →
        HittableList.hits [.sphere sph0, .sphere sphFar] ray0 (1/1000) ⊤ = none)) :=
  ⟨le_top, hittableList_hits_nearest [.sphere sph0, .sphere sphFar] ray0 (1/1000) ⊤ le_top⟩

/-! ### C10: normals are always present on sphere hits -/

/-- Every hit record produced by any hittable (spheres, or nested
aggregates of spheres) carries a present normal. -/
theorem hits_normal_isSome : ∀ (h : HittableEnum) (ray : Ray) (tmin : ℚ)
    (tmax : WithTop ℚ) (rec : HitRecord), h.hits ray tmin tmax = some rec →
    rec.normal.isSome = true
  | .sphere s => fun ray tmin tmax rec h => Sphere.hits_normal s ray tmin tmax rec h
  | .list hs => by
    have ih : ∀ h2 ∈ hs, ∀ (ray : Ray) (tmin : ℚ) (tmax : WithTop ℚ)
        (rec : HitRecord), h2.hits ray tmin tmax = some rec →
        rec.normal.isSome = true := fun h2 hm =>
      have : sizeOf h2 < 1 + sizeOf hs :=
        Nat.lt_trans (List.sizeOf_lt_of_mem hm) (by omega)
      hits_normal_isSome h2
    intro ray tmin tmax rec h
    have h2 : HittableEnum.hits.go ray tmin hs tmax none = some rec := h
    exact go_pred (fun r => r.normal.isSome = true) ray tmin hs tmax none
      (fun x hx tm r hr => ih x hx ray tmin tm r hr) (by intro b hb; cases hb) rec h2
termination_by h => sizeOf h

/-- C10: any hit record produced by a sphere or an aggregate of spheres has
a present normal, so the unconditional normal unwrap inside every
material's scatter cannot panic on it. -/
theorem hit_normal_present_scatter_safe (h : HittableEnum) (ray : Ray)
    (tmin : ℚ) (tmax : WithTop ℚ) (rec : HitRecord)
    (hh : h.hits ray tmin tmax = some rec) :
    rec.normal.isSome = true ∧
    ∀ (ray2 : Ray) (d : RngDraw), ∃ res, rec.material.scatter ray2 rec d = .ok res := by
  have hn := hits_normal_isSome h ray tmin tmax rec hh
  refine ⟨hn, fun ray2 d => ?_⟩
  obtain ⟨n, hsome⟩ := Option.isSome_iff_exists.mp hn
  cases rec.material with
  | lambertian m =>
    exact ⟨_, by rw [MaterialEnum.scatter_lambertian, lambertian_scatter_eq m ray2 rec n d hsome]⟩
  | dielectric m =>
    exact ⟨_, by rw [MaterialEnum.scatter_dielectric, dielectric_scatter_eq m ray2 rec n d hsome]⟩
  | metal m =>
    rw [MaterialEnum.scatter_metal, metal_scatter_eq m ray2 rec n d hsome]
    by_cases hpos : 0 < (Ray.new rec.pos (reflect ray2.direction n + m.fuzz • d.sphere)).direction.dot n
    · exact ⟨_, by rw [if_pos hpos]⟩
    · exact ⟨_, by rw [if_neg hpos]⟩

/-- The hit record the concrete sphere query produces. -/
def rec0 : HitRecord :=
  ⟨2, ray0.at 2, some ((ray0.at 2 - sph0.center).divQ sph0.radius), sph0.material⟩

theorem sph0_hits_eval : sph0.hits ray0 (1/1000) ⊤ = some rec0 := by
  rw [rec0]
  simp only [Sphere.hits, Sphere.mkHit]
  rw [show ray0.origin = (⟨0, 0, 0⟩ : Vec3) from rfl, ray0_direction,
    show sph0.center = (⟨0, 0, -3⟩ : Vec3) from rfl, show sph0.radius = (1 : ℚ) from rfl]
  norm_num [Vec3.sub_def, Vec3.dot]
  rw [rsqrt_four]
  norm_num [ray0_direction]

def world0 : HittableEnum := .list [.sphere sph0]

theorem world0_hits_eval : HittableEnum.hits world0 ray0 (1/1000) ⊤ = some rec0 := by
  rw [show HittableEnum.hits world0 ray0 (1/1000) ⊤ =
    HittableEnum.hits.go ray0 (1/1000) [.sphere sph0] ⊤ none from rfl]
  rw [hits_go_cons_some ray0 (1/1000) (.sphere sph0) [] ⊤ none rec0
    (by rw [HittableEnum.hits_sphere]; exact sph0_hits_eval)]
  rw [if_pos (show ((rec0.t : ℚ) : WithTop ℚ) < ⊤ from WithTop.coe_lt_top _),
    HittableEnum.hits_go_nil]

/-- Witness for C10 at the concrete single-sphere scene. -/
theorem hit_normal_present_scatter_safe_witness :
    HittableEnum.hits world0 ray0 (1/1000) ⊤ = some rec0 ∧
    rec0.normal.isSome = true ∧
    ∃ res, rec0.material.scatter ray0 rec0 draw0 = .ok res := by
  have hcall := hit_normal_present_scatter_safe world0 ray0 (1/1000) ⊤ rec0 world0_hits_eval
  exact ⟨world0_hits_eval, hcall.1, hcall.2 ray0 draw0⟩

/-! ### C7: the energy bound of the integrator -/

/-- All three channels in [0, 1]. -/
def LinSrgb.bounded01 (c : LinSrgb) : Prop :=
  (0 ≤ c.red ∧ c.red ≤ 1) ∧ (0 ≤ c.green ∧ c.green ≤ 1) ∧ (0 ≤ c.blue ∧ c.blue ≤ 1)

theorem bounded01_mul (a b : LinSrgb) (ha : a.bounded01) (hb : b.bounded01) :
    (a * b).bounded01 := by
  simp only [LinSrgb.bounded01, LinSrgb.mul_def] at ha hb ⊢
  obtain ⟨⟨har0, har1⟩, ⟨hag0, hag1⟩, ⟨hab0, hab1⟩⟩ := ha
  obtain ⟨⟨hbr0, hbr1⟩, ⟨hbg0, hbg1⟩, ⟨hbb0, hbb1⟩⟩ := hb
  refine ⟨⟨?_, ?_⟩, ⟨?_, ?_⟩, ⟨?_, ?_⟩⟩ <;> nlinarith

theorem black_bounded : (⟨0, 0, 0⟩ : LinSrgb).bounded01 := by
  simp only [LinSrgb.bounded01]
  norm_num

theorem mix_background_bounded (t : ℚ) (h0 : 0 ≤ t) (h1 : t ≤ 1) :
    (LinSrgb.mix ⟨1, 1, 1⟩ ⟨1/2, 7/10, 1⟩ t).bounded01 := by
  simp only [LinSrgb.mix, LinSrgb.bounded01]
  refine ⟨⟨?_, ?_⟩, ⟨?_, ?_⟩, ⟨?_, ?_⟩⟩ <;> nlinarith

/-- A material has physically valid attenuations: albedo channels in
[0, 1] (dielectrics attenuate by white, which is always valid). -/
def MaterialEnum.albedoOk : MaterialEnum → Prop
  | .lambertian m => m.albedo.bounded01
  | .metal m => m.albedo.bounded01
  | .dielectric _ => True

/-- Every material reachable in a scene is physically valid. -/
def HittableEnum.matsOk : HittableEnum → Prop
  | .sphere s => s.material.albedoOk
  | .list hs => go hs
where go : List HittableEnum → Prop
  | [] => True
  | h :: rest => h.matsOk ∧ go rest

theorem matsOk_go_mem : ∀ (hs : List HittableEnum),
    HittableEnum.matsOk.go hs → ∀ h ∈ hs, h.matsOk := by
  intro hs
  induction hs with
  | nil => intro _ h hm; exact absurd hm (List.not_mem_nil _)
  | cons hd rest ih =>
    intro hgo h hm
    rcases List.mem_cons.mp hm with rfl | hm2
    · exact hgo.1
    · exact ih hgo.2 h hm2

/-- Hit records produced in a valid scene carry valid materials. -/
theorem hits_albedoOk : ∀ (h : HittableEnum), h.matsOk →
    ∀ (ray : Ray) (tmin : ℚ) (tmax : WithTop ℚ) (rec : HitRecord),
      h.hits ray tmin tmax = some rec → rec.material.albedoOk
  | .sphere s => fun hm ray tmin tmax rec h => by
    rw [Sphere.hits_material s ray tmin tmax rec h]
    exact hm
  | .list hs => by
    have ih : ∀ h2 ∈ hs, h2.matsOk →
        ∀ (ray : Ray) (tmin : ℚ) (tmax : WithTop ℚ) (rec : HitRecord),
          h2.hits ray tmin tmax = some rec → rec.material.albedoOk := fun h2 hm =>
      have : sizeOf h2 < 1 + sizeOf hs :=
        Nat.lt_trans (List.sizeOf_lt_of_mem hm) (by omega)
      hits_albedoOk h2
    intro hm ray tmin tmax rec h
    have h2 : HittableEnum.hits.go ray tmin hs tmax none = some rec := h
    have hmems := matsOk_go_mem hs hm
    exact go_pred (fun r => r.material.albedoOk) ray tmin hs tmax none
      (fun x hx tm r hr => ih x hx (hmems x hx) ray tmin tm r hr)
      (by intro b hb; cases hb) rec h2
termination_by h => sizeOf h

/-- Scattering attenuations of valid materials are in [0, 1]: albedo for
Lambertian and Metal, white for Dielectric. -/
theorem scatter_attenuation_ok (m : MaterialEnum) (ray : Ray) (hr : HitRecord)
    (d : RngDraw) (sc : Scattering) (hm : m.albedoOk)
    (h : m.scatter ray hr d = .ok (some sc)) : sc.attenuation.bounded01 := by
  cases hn : hr.normal with
  | none =>
    cases m <;> simp [MaterialEnum.scatter, Lambertian.scatter, Metal.scatter,
      Dielectric.scatter, hn] at h
  | some n =>
    cases m with
    | lambertian m2 =>
      rw [MaterialEnum.scatter_lambertian, lambertian_scatter_eq m2 ray hr n d hn] at h
      simp only [Except.ok.injEq, Option.some.injEq] at h
      rw [← h]
      exact hm
    | dielectric m2 =>
      rw [MaterialEnum.scatter_dielectric, dielectric_scatter_eq m2 ray hr n d hn] at h
      simp only [Except.ok.injEq, Option.some.injEq] at h
      rw [← h]
      show LinSrgb.bounded01 ⟨1, 1, 1⟩
      simp only [LinSrgb.bounded01]
      norm_num
    | metal m2 =>
      rw [MaterialEnum.scatter_metal, metal_scatter_eq m2 ray hr n d hn] at h
      split at h
      · simp only [Except.ok.injEq, Option.some.injEq] at h
        rw [← h]
        exact hm
      · exact absurd h (by simp)

/-- Every scattered ray is built by `Ray::new`, so its direction is
normalized and its y component lies in [-1, 1]. -/
theorem scatter_scattered_y_bounds (m : MaterialEnum) (ray : Ray)
    (hr : HitRecord) (d : RngDraw) (sc : Scattering)
    (h : m.scatter ray hr d = .ok (some sc)) :
    -1 ≤ sc.scattered.direction.y ∧ sc.scattered.direction.y ≤ 1 := by
  cases hn : hr.normal with
  | none =>
    cases m <;> simp [MaterialEnum.scatter, Lambertian.scatter, Metal.scatter,
      Dielectric.scatter, hn] at h
  | some n =>
    cases m with
    | lambertian m2 =>
      rw [MaterialEnum.scatter_lambertian, lambertian_scatter_eq m2 ray hr n d hn] at h
      simp only [Except.ok.injEq, Option.some.injEq] at h
      rw [← h]
      exact normalize_y_bounds _
    | dielectric m2 =>
      rw [MaterialEnum.scatter_dielectric, dielectric_scatter_eq m2 ray hr n d hn] at h
      simp only [Except.ok.injEq, Option.some.injEq] at h
      rw [← h]
      exact normalize_y_bounds _
    | metal m2 =>
      rw [MaterialEnum.scatter_metal, metal_scatter_eq m2 ray hr n d hn] at h
      split at h
      · simp only [Except.ok.injEq, Option.some.injEq] at h
        rw [← h]
        exact normalize_y_bounds _
      · exact absurd h (by simp)

/-- Channel bound of the integrator, by induction on the remaining bounce
budget. -/
theorem color_bounded_aux :
    ∀ (k : ℕ) (world : HittableEnum) (bounce : ℕ) (ray : Ray)
      (rng : ℕ → RngDraw) (c : LinSrgb),
      world.matsOk → BOUNCES - bounce ≤ k →
      -1 ≤ ray.direction.y → ray.direction.y ≤ 1 →
      color ray world bounce rng = .ok c → c.bounded01 := by
  intro k
  induction k with
  | zero =>
    intro world bounce ray rng c hm hk hy1 hy2 h
    rw [color] at h
    cases hhits : HittableEnum.hits world ray (1/1000) ⊤ with
    | none =>
      rw [hhits] at h
      simp only [Except.ok.injEq] at h
      rw [← h]
      exact mix_background_bounded _ (by linarith) (by linarith)
    | some hr =>
      rw [hhits] at h
      dsimp only at h
      rw [dif_neg (show ¬ bounce < BOUNCES by omega)] at h
      simp only [Except.ok.injEq] at h
      rw [← h]
      exact black_bounded
  | succ k ih =>
    intro world bounce ray rng c hm hk hy1 hy2 h
    rw [color] at h
    cases hhits : HittableEnum.hits world ray (1/1000) ⊤ with
    | none =>
      rw [hhits] at h
      simp only [Except.ok.injEq] at h
      rw [← h]
      exact mix_background_bounded _ (by linarith) (by linarith)
    | some hr =>
      rw [hhits] at h
      dsimp only at h
      by_cases hb : bounce < BOUNCES
      · rw [dif_pos hb] at h
        cases hscat : hr.material.scatter ray hr (rng bounce) with
        | error e =>
          rw [hscat] at h
          exact absurd h (by simp)
        | ok osc =>
          rw [hscat] at h
          cases osc with
          | none =>
            dsimp only at h
            simp only [Except.ok.injEq] at h
            rw [← h]
            exact black_bounded
          | some sc =>
            dsimp only at h
            cases hrec : color sc.scattered world (bounce + 1) rng with
            | error e =>
              rw [hrec] at h
              exact absurd h (by simp)
            | ok c2 =>
              rw [hrec] at h
              simp only [Except.ok.injEq] at h
              have hybounds := scatter_scattered_y_bounds hr.material ray hr (rng bounce) sc hscat
              have hc2 := ih world (bounce + 1) sc.scattered rng c2 hm (by omega)
                hybounds.1 hybounds.2 hrec
              have hatt := scatter_attenuation_ok hr.material ray hr (rng bounce) sc
                (hits_albedoOk world hm ray (1/1000) ⊤ hr hhits) hscat
              rw [← h]
              exact bounded01_mul _ _ hatt hc2
      · rw [dif_neg hb] at h
        simp only [Except.ok.injEq] at h
        rw [← h]
        exact black_bounded

/-- C7: if every material reachable in the scene has attenuation channels
in [0, 1], then every channel of the integrator's result is at most 1, for
any ray (whose stored direction, being normalized, has y in [-1, 1]), any
depth, and any RNG stream. -/
theorem color_energy_bound (world : HittableEnum) (ray : Ray) (bounce : ℕ)
    (rng : ℕ → RngDraw) (c : LinSrgb) (hm : world.matsOk)
    (hy1 : -1 ≤ ray.direction.y) (hy2 : ray.direction.y ≤ 1)
    (h : color ray world bounce rng = .ok c) :
    c.red ≤ 1 ∧ c.green ≤ 1 ∧ c.blue ≤ 1 := by
  have hb := color_bounded_aux (BOUNCES - bounce) world bounce ray rng c hm le_rfl hy1 hy2 h
  exact ⟨hb.1.2, hb.2.1.2, hb.2.2.2⟩

theorem sph0_hits_up_eval : sph0.hits upRay (1/1000) ⊤ = none := by
  simp only [Sphere.hits]
  rw [show upRay.origin = (⟨0, 0, 0⟩ : Vec3) from rfl, upRay_direction,
    show sph0.center = (⟨0, 0, -3⟩ : Vec3) from rfl, show sph0.radius = (1 : ℚ) from rfl]
  norm_num [Vec3.sub_def, Vec3.dot]

theorem world0_hits_up_eval : HittableEnum.hits world0 upRay (1/1000) ⊤ = none := by
  rw [show HittableEnum.hits world0 upRay (1/1000) ⊤ =
      HittableEnum.hits.go upRay (1/1000) [.sphere sph0] ⊤ none from rfl,
    hits_go_cons_none upRay (1/1000) (.sphere sph0) [] ⊤ none
      (by rw [HittableEnum.hits_sphere]; exact sph0_hits_up_eval),
    HittableEnum.hits_go_nil]

theorem color_up_world0 : color upRay world0 0 rng0 = .ok ⟨1/2, 7/10, 1⟩ := by
  rw [color, world0_hits_up_eval]
  simp only [upRay_direction, LinSrgb.mix, Except.ok.injEq, LinSrgb.mk.injEq]
  norm_num

/-- Witness for C7: the single-sphere scene with a gray Lambertian, probed
by the upward ray (a miss), yields the blue background, whose channels are
at most 1. -/
theorem color_energy_bound_witness :
    world0.matsOk ∧
    (-1 ≤ upRay.direction.y ∧ upRay.direction.y ≤ 1) ∧
    color upRay world0 0 rng0 = .ok ⟨1/2, 7/10, 1⟩ ∧
    ((1/2 : ℚ) ≤ 1 ∧ (7/10 : ℚ) ≤ 1 ∧ (1 : ℚ) ≤ 1) := by
  have hm : world0.matsOk := by
    refine ⟨?_, trivial⟩
    show LinSrgb.bounded01 ⟨1/2, 1/2, 1/2⟩
    simp only [LinSrgb.bounded01]
    norm_num
  have hy : upRay.direction.y = 1 := by rw [upRay_direction]
  exact ⟨hm, ⟨by rw [hy]; norm_num, by rw [hy]⟩, color_up_world0,
    color_energy_bound world0 upRay 0 rng0 ⟨1/2, 7/10, 1⟩ hm
      (by rw [hy]; norm_num) (by rw [hy]) color_up_world0⟩

end Lufasu
